import Mathlib

/-!
Verification of the precise-float library (src/index.js): exact conversion
between binary64 floating-point values and decimal strings.

Embedding conventions:
- A JavaScript number is represented by its 64-bit IEEE-754 binary64 bit
  pattern, a natural number below 2^64.  The byte view used by the source
  (Float64Array aliased by a Uint8Array, little-endian) is `byteAt b i`.
- decimal.js values are represented by rational numbers.  The library is
  configured with `precision: 10000` significant digits; every quantity the
  source computes (mantissa / 2^52, powers of two down to 2^-1074, their
  products, and exact decimal literals) needs at most ~1100 significant
  digits, so the decimal.js arithmetic performed by the source is exact and
  faithfully modelled by rational arithmetic.
- `Decimal(string)` on a grammar-valid literal is exact; it is modelled by
  `litValue`.  `Decimal.toFixed()` (no argument) renders the exact value in
  plain fixed-point notation with minimal digits; it is modelled by
  `toFixed`.  `Decimal.toNumber()` converts to a JavaScript number with the
  standard binary64 round-to-nearest, ties-to-even rounding; it is modelled
  by `roundPos` (only ever applied to nonnegative values by the source).
-/

namespace PreciseFloat

/-- Little-endian byte `i` of the 64-bit encoding `b`, as read from the
Uint8Array view of the Float64Array in `_decodeFloat`. -/
def byteAt (b i : ℕ) : ℕ := b / 256 ^ i % 256

/-- Embedding of `_decodeFloat` (src/index.js lines 12-31): extracts the
exponent field from the top bytes and reconstructs the 52-bit mantissa by
multiplication-based accumulation (`Math.pow(1 << 8, k)` is `256 ^ k`).
The JS 32-bit bitwise operations `&`, `<<`, `>>` only ever see values below
2^12 here, so they agree with the untruncated operations used in this
embedding.  Returns (exponent, mantissa). -/
def _decodeFloat (b : ℕ) : ℕ × ℕ :=
  (((byteAt b 7 &&& 127) <<< 4) + ((byteAt b 6 &&& 240) >>> 4),
    (byteAt b 6 &&& 15) * 256 ^ 6 +
    (byteAt b 5 &&& 255) * 256 ^ 5 +
    (byteAt b 4 &&& 255) * 256 ^ 4 +
    (byteAt b 3 &&& 255) * 256 ^ 3 +
    (byteAt b 2 &&& 255) * 256 ^ 2 +
    (byteAt b 1 &&& 255) * 256 ^ 1 +
    (byteAt b 0 &&& 255) * 256 ^ 0)

/-- Exact power of two as a rational, written over machine naturals so
that it evaluates by GMP arithmetic instead of deep unary recursion.
Equal to `(2 : ℚ) ^ z` (theorem `qpow2_eq`). -/
def qpow2 (z : ℤ) : ℚ :=
  if 0 ≤ z then ((2 ^ z.toNat : ℕ) : ℚ) else (((2 ^ (-z).toNat : ℕ) : ℚ))⁻¹

/-- Exact power of ten as a rational, written over machine naturals.
Equal to `(10 : ℚ) ^ z` (theorem `qpow10_eq`). -/
def qpow10 (z : ℤ) : ℚ :=
  if 0 ≤ z then ((10 ^ z.toNat : ℕ) : ℚ) else (((10 ^ (-z).toNat : ℕ) : ℚ))⁻¹

/-- The binary64 overflow threshold `2^1024 - 2^970`: round-to-nearest
sends a magnitude to infinity exactly when it reaches this value. -/
def overflowThreshold : ℚ := ((2 ^ 1024 - 2 ^ 970 : ℕ) : ℚ)

/-- Embedding of the arithmetic of `_getExactDecimal` (src/index.js lines
33-46) as a function of the decoded fields: `fraction` is
`mantissa / 2^52` plus the implicit bit (absent for exponent 0), `power` is
`2 ^ ((exponent === 0 ? 1 : exponent) - 1023)`.  decimal.js computes these
exactly at the configured precision; the model uses exact rationals. -/
def _exactFromFields (exponent mantissa : ℕ) : ℚ :=
  (((mantissa : ℚ) / 2 ^ 52) + (if exponent = 0 then 0 else 1)) *
    qpow2 ((if exponent = 0 then 1 else (exponent : ℤ)) - 1023)

/-- Embedding of `_getExactDecimal` (src/index.js lines 33-46): decode the
bit pattern, then compute the exact decimal value of the fields. -/
def _getExactDecimal (b : ℕ) : ℚ :=
  _exactFromFields (_decodeFloat b).1 (_decodeFloat b).2

/-- Modelled from the spec (sections 3, 4.1 and the glossary): the unique
exact real number a 64-bit pattern denotes under the binary64 format -
sign bit 63, exponent field bits 52-62, mantissa field bits 0-51, with the
subnormal rule for exponent field 0.  This is the spec-side reference
definition used to judge the decode/exact-value path of the source. -/
def refValue (b : ℕ) : ℚ :=
  (if b / 2 ^ 63 % 2 = 1 then -1 else 1) *
    (if b / 2 ^ 52 % 2 ^ 11 = 0 then
        ((b % 2 ^ 52 : ℕ) : ℚ) / 2 ^ 52 * 2 ^ ((1 : ℤ) - 1023)
      else
        (((b % 2 ^ 52 : ℕ) : ℚ) / 2 ^ 52 + 1) * 2 ^ ((b / 2 ^ 52 % 2 ^ 11 : ℕ) - (1023 : ℤ)))

/-- Bit pattern of +Infinity. -/
def infBits : ℕ := 0x7FF0000000000000

/-- Bit pattern of -Infinity. -/
def negInfBits : ℕ := 0xFFF0000000000000

/-- Bit pattern of the canonical JavaScript NaN. -/
def nanBits : ℕ := 0x7FF8000000000000

/-- Exponent field (bits 52-62) of a 64-bit pattern. -/
def expField (b : ℕ) : ℕ := b / 2 ^ 52 % 2 ^ 11

/-- A 64-bit pattern denotes a finite value iff its exponent field is not
all ones. -/
def isFinite (b : ℕ) : Prop := expField b ≠ 2047

instance (b : ℕ) : Decidable (isFinite b) := by
  unfold isFinite; infer_instance

/-! Decimal-digit utilities used to model decimal.js string rendering and
parsing.  All recursions are structural (fuel-based where needed) so that
every definition evaluates inside the kernel. -/

/-- Character for a single decimal digit value. -/
def charOfDigit : ℕ → Char
  | 0 => '0'
  | 1 => '1'
  | 2 => '2'
  | 3 => '3'
  | 4 => '4'
  | 5 => '5'
  | 6 => '6'
  | 7 => '7'
  | 8 => '8'
  | 9 => '9'
  | _ => '0'

/-- Numeric value of a digit character. -/
def digitVal (c : Char) : ℕ := c.toNat - 48

/-- Value of a little-endian list of decimal digits. -/
def unDigits : List ℕ → ℕ
  | [] => 0
  | d :: ds => d + 10 * unDigits ds

/-- Little-endian base-10 digits of `n`, with explicit fuel. -/
def natDigitsAux : ℕ → ℕ → List ℕ
  | 0, _ => []
  | f + 1, n => if n = 0 then [] else n % 10 :: natDigitsAux f (n / 10)

/-- Little-endian base-10 digits of `n` (empty for 0). -/
def natDigits (n : ℕ) : List ℕ := natDigitsAux n n

/-- Canonical decimal character string of a natural number (big-endian,
no leading zeros, "0" for zero). -/
def natChars (n : ℕ) : List Char :=
  if n = 0 then ['0'] else ((natDigits n).map charOfDigit).reverse

/-- Fractional-part characters: the value `n`, rendered in exactly `d`
digits with leading zeros preserved. -/
def fracChars (n d : ℕ) : List Char :=
  ((natDigits n ++ List.replicate (d - (natDigits n).length) 0).map charOfDigit).reverse

/-- Number of decimal fraction digits still needed to make `q` an integer,
with explicit fuel. -/
def decDigitsAux : ℕ → ℚ → ℕ
  | 0, _ => 0
  | f + 1, q => if q.den = 1 then 0 else decDigitsAux f (q * 10) + 1

/-- Minimal number of decimal fraction digits of `q` (when `q` has a
terminating decimal expansion). -/
def decDigits (q : ℚ) : ℕ := decDigitsAux q.den q

/-- Model of decimal.js `toFixed()` with no argument, on nonnegative values
with terminating decimal expansions: the exact value in plain fixed-point
notation with the minimal number of digits. -/
def toFixed (q : ℚ) : String :=
  if decDigits q = 0 then String.mk (natChars ((q * 10 ^ decDigits q).num.toNat))
  else
    String.mk (natChars ((q * 10 ^ decDigits q).num.toNat / 10 ^ decDigits q) ++
      '.' :: fracChars ((q * 10 ^ decDigits q).num.toNat % 10 ^ decDigits q) (decDigits q))

/-! Model of the literal grammar
`^-?(0|([1-9][0-9]*))(\.[0-9]+)?([eE][+-]?[0-9]+)?$` from src/index.js
line 104.  Each alternative is determined by the first character and each
repetition is maximal-munch, with the follow sets disjoint from the digit
class, so this deterministic matcher is equivalent to the regex. -/

/-- Drops a maximal run of leading digit characters. -/
def dropDigits : List Char → List Char
  | [] => []
  | c :: r => if c.isDigit then dropDigits r else c :: r

/-- Every character is a decimal digit. -/
def allDigits : List Char → Bool
  | [] => true
  | c :: r => c.isDigit && allDigits r

/-- Matches `[0-9]+$`. -/
def digitsPlus : List Char → Bool
  | [] => false
  | c :: r => c.isDigit && allDigits r

/-- Matches `[+-]?[0-9]+$`. -/
def matchSignedDigits : List Char → Bool
  | [] => false
  | c :: r => if c = '+' ∨ c = '-' then digitsPlus r else digitsPlus (c :: r)

/-- Matches `([eE][+-]?[0-9]+)?$`. -/
def matchExpPart : List Char → Bool
  | [] => true
  | c :: r => (c = 'e' ∨ c = 'E') && matchSignedDigits r

/-- Matches `[0-9]+([eE][+-]?[0-9]+)?$`. -/
def matchDigitsExp : List Char → Bool
  | [] => false
  | c :: r => c.isDigit && matchExpPart (dropDigits r)

/-- Matches `(\.[0-9]+)?([eE][+-]?[0-9]+)?$`. -/
def matchFracExp : List Char → Bool
  | [] => true
  | c :: r => if c = '.' then matchDigitsExp r else matchExpPart (c :: r)

/-- Matches `(0|([1-9][0-9]*))(\.[0-9]+)?([eE][+-]?[0-9]+)?$`. -/
def matchIntPart : List Char → Bool
  | [] => false
  | c :: r =>
    if c = '0' then matchFracExp r
    else if '1' ≤ c ∧ c ≤ '9' then matchFracExp (dropDigits r)
    else false

/-- Model of the regex test at src/index.js line 104. -/
def matchGrammar (s : String) : Bool :=
  match s.toList with
  | [] => false
  | c :: r => if c = '-' then matchIntPart r else matchIntPart (c :: r)

/-! Exact value of a grammar-valid literal, modelling the lossless
`new Decimal(string)` construction. -/

/-- Value of a big-endian digit string. -/
def digitsVal (l : List Char) : ℕ := l.foldl (fun a c => 10 * a + digitVal c) 0

/-- Splits at the first `e`/`E` (exponent marker excluded). -/
def splitExp : List Char → List Char × List Char
  | [] => ([], [])
  | c :: r => if c = 'e' ∨ c = 'E' then ([], r) else (c :: (splitExp r).1, (splitExp r).2)

/-- Splits at the first `.` (dot excluded). -/
def splitDot : List Char → List Char × List Char
  | [] => ([], [])
  | c :: r => if c = '.' then ([], r) else (c :: (splitDot r).1, (splitDot r).2)

/-- Signed value of an exponent-part digit string. -/
def expVal : List Char → ℤ
  | [] => 0
  | c :: r =>
    if c = '+' then (digitsVal r : ℤ)
    else if c = '-' then -(digitsVal r : ℤ)
    else (digitsVal (c :: r) : ℤ)

/-- Exact rational value denoted by a grammar-valid (unsigned) decimal
literal: models the lossless `new Decimal(positiveNumericString)`. -/
def litValue (l : List Char) : ℚ :=
  (digitsVal ((splitDot (splitExp l).1).1 ++ (splitDot (splitExp l).1).2) : ℚ) *
    qpow10 (expVal (splitExp l).2 - (((splitDot (splitExp l).1).2.length : ℕ) : ℤ))

/-! Model of `Decimal.toNumber()`: binary64 round-to-nearest, ties-to-even.
The source only applies it to nonnegative values. -/

/-- Floor of the base-2 logarithm of a natural number, with fuel. -/
def log2fuel : ℕ → ℕ → ℕ
  | 0, _ => 0
  | f + 1, n => if n ≤ 1 then 0 else log2fuel f (n / 2) + 1

/-- Ceiling of the base-2 logarithm of a natural number, with fuel. -/
def clog2fuel : ℕ → ℕ → ℕ
  | 0, _ => 0
  | f + 1, n => if n ≤ 1 then 0 else clog2fuel f ((n + 1) / 2) + 1

/-- Floor of the base-2 logarithm of a positive rational. -/
def qlog2 (q : ℚ) : ℤ :=
  if 1 ≤ q then (log2fuel ⌊q⌋.toNat ⌊q⌋.toNat : ℤ)
  else -(clog2fuel ⌈q⁻¹⌉.toNat ⌈q⁻¹⌉.toNat : ℤ)

/-- Round-half-even of a nonnegative rational to a natural number. -/
def rhe (q : ℚ) : ℕ :=
  if q - (⌊q⌋.toNat : ℚ) < 1 / 2 then ⌊q⌋.toNat
  else if 1 / 2 < q - (⌊q⌋.toNat : ℚ) then ⌊q⌋.toNat + 1
  else if ⌊q⌋.toNat % 2 = 0 then ⌊q⌋.toNat else ⌊q⌋.toNat + 1

/-- Binary64 round-to-nearest-even of a nonnegative rational, as a bit
pattern; `none` when the rounded magnitude overflows to infinity (which
happens exactly for values at or above `2^1024 - 2^970`).  Models
`Decimal.prototype.toNumber` followed by the `Number.isFinite` test. -/
def roundPos (q : ℚ) : Option ℕ :=
  if q ≤ 0 then some 0
  else if overflowThreshold ≤ q then none
  else
    some ((max (qlog2 q) (-1022) + 1022).toNat * 2 ^ 52 +
      rhe (q * qpow2 ((52 : ℤ) - max (qlog2 q) (-1022))))

/-! The two public operations. -/

/-- Embedding of `stringify` (src/index.js lines 48-79) after the arity and
type guards.  `Number.isNaN value` holds iff the exponent field is all ones
and the mantissa is nonzero; `value < 0 || Object.is(-0, value)` holds for
a non-NaN pattern iff the sign bit is set; `-value` clears the sign bit. -/
def stringify (b : ℕ) : String :=
  if expField b = 2047 ∧ b % 2 ^ 52 ≠ 0 then "NaN"
  else if b = infBits then "Infinity"
  else if b = negInfBits then "-Infinity"
  else
    (if 2 ^ 63 ≤ b then "-" else "") ++
      toFixed (_getExactDecimal (if 2 ^ 63 ≤ b then b - 2 ^ 63 else b))

/-- Error taxonomy of the spec (section 7).  The source throws plain
`Error`s with five distinct messages; each message maps to one
constructor, carrying the data interpolated into it. -/
inductive Err : Type
  | arity (received : ℕ)
  | typeMismatch (expected received : String)
  | badGrammar (received : String)
  | magnitude (received : String)
  | precisionLoss (received closest : String)
deriving DecidableEq

/-- Does a '-' character start the list (JS `value.startsWith('-')`). -/
def startsWithMinus : List Char → Bool
  | [] => false
  | c :: _ => c = '-'

/-- The characters of a literal with its optional leading minus removed
(the `positiveNumericString` of the source). -/
def stripMinus (s : String) : List Char :=
  if startsWithMinus s.toList then s.toList.drop 1 else s.toList

/-- Embedding of `parse` (src/index.js lines 81-129) after the arity and
type guards.  Returns the bit pattern of the resulting number. -/
def parse (s : String) : Except Err ℕ :=
  if s = "NaN" then .ok nanBits
  else if s = "Infinity" then .ok infBits
  else if s = "-Infinity" then .ok negInfBits
  else if matchGrammar s then
    let isNegative := startsWithMinus s.toList
    let positiveNumericString := if isNegative then s.toList.drop 1 else s.toList
    let positiveDecimal := litValue positiveNumericString
    match roundPos positiveDecimal with
    | none => .error (.magnitude (String.mk positiveNumericString))
    | some positiveNumber =>
      if _getExactDecimal positiveNumber = positiveDecimal then
        .ok (if isNegative then positiveNumber + 2 ^ 63 else positiveNumber)
      else
        .error (.precisionLoss (String.mk positiveNumericString)
          (toFixed (_getExactDecimal positiveNumber)))
  else .error (.badGrammar s)

/-! Arity and dynamic-type guards (src/index.js lines 48-57 and 81-90).
JavaScript argument lists and dynamic types are modelled explicitly. -/

/-- A JavaScript value, classified by `typeof`. -/
inductive JSValue : Type
  | num (bits : ℕ)
  | str (s : String)
  | boolean (b : Bool)
  | undefined
  | null
  | object
  | function
deriving DecidableEq

/-- JS `typeof`. -/
def typeofV : JSValue → String
  | .num _ => "number"
  | .str _ => "string"
  | .boolean _ => "boolean"
  | .undefined => "undefined"
  | .null => "object"
  | .object => "object"
  | .function => "function"

/-- `stringify` with its arity and type guards, on an explicit JavaScript
argument list. -/
def stringifyV : List JSValue → Except Err String
  | [JSValue.num b] => .ok (stringify b)
  | [v] => .error (.typeMismatch "number" (typeofV v))
  | ps => .error (.arity ps.length)

/-- `parse` with its arity and type guards, on an explicit JavaScript
argument list. -/
def parseV : List JSValue → Except Err ℕ
  | [JSValue.str s] => parse s
  | [v] => .error (.typeMismatch "string" (typeofV v))
  | ps => .error (.arity ps.length)

instance {ε α : Type} [DecidableEq ε] [DecidableEq α] : DecidableEq (Except ε α)
  | .error e, .error f =>
    if h : e = f then .isTrue (by rw [h]) else .isFalse (by intro hh; cases hh; exact h rfl)
  | .error _, .ok _ => .isFalse (by intro hh; cases hh)
  | .ok _, .error _ => .isFalse (by intro hh; cases hh)
  | .ok a, .ok b =>
    if h : a = b then .isTrue (by rw [h]) else .isFalse (by intro hh; cases hh; exact h rfl)

/-! Bit-level lemmas: the byte-wise extraction in `_decodeFloat` computes
the exponent and mantissa fields of the encoding. -/

theorem byteAt_lt (b i : ℕ) : byteAt b i < 256 := Nat.mod_lt _ (by norm_num)

set_option maxRecDepth 8000 in
theorem and127_eq : ∀ x, x < 256 → x &&& 127 = x % 128 := by decide

set_option maxRecDepth 8000 in
theorem and240_shift : ∀ x, x < 256 → (x &&& 240) >>> 4 = x / 16 := by decide

set_option maxRecDepth 8000 in
theorem and15_eq : ∀ x, x < 256 → x &&& 15 = x % 16 := by decide

set_option maxRecDepth 8000 in
theorem and255_eq : ∀ x, x < 256 → x &&& 255 = x := by decide

theorem shiftl4_eq (x : ℕ) : x <<< 4 = x * 16 := by
  rw [Nat.shiftLeft_eq]

/-- The exponent computed by `_decodeFloat` is the exponent field, bits
52-62 of the encoding (for any 64-bit pattern; the sign bit is masked
away by the `& 0b01111111`). -/
theorem decodeFloat_fst (b : ℕ) : (_decodeFloat b).1 = b / 2 ^ 52 % 2 ^ 11 := by
  show (byteAt b 7 &&& 127) <<< 4 + (byteAt b 6 &&& 240) >>> 4 = b / 2 ^ 52 % 2 ^ 11
  rw [and127_eq _ (byteAt_lt b 7), shiftl4_eq, and240_shift _ (byteAt_lt b 6)]
  unfold byteAt
  norm_num
  omega

/-- The mantissa computed by `_decodeFloat` is the mantissa field, bits
0-51 of the encoding, with no truncation. -/
theorem decodeFloat_snd (b : ℕ) : (_decodeFloat b).2 = b % 2 ^ 52 := by
  show (byteAt b 6 &&& 15) * 256 ^ 6 + (byteAt b 5 &&& 255) * 256 ^ 5 +
      (byteAt b 4 &&& 255) * 256 ^ 4 + (byteAt b 3 &&& 255) * 256 ^ 3 +
      (byteAt b 2 &&& 255) * 256 ^ 2 + (byteAt b 1 &&& 255) * 256 ^ 1 +
      (byteAt b 0 &&& 255) * 256 ^ 0 = b % 2 ^ 52
  rw [and15_eq _ (byteAt_lt b 6), and255_eq _ (byteAt_lt b 5), and255_eq _ (byteAt_lt b 4),
    and255_eq _ (byteAt_lt b 3), and255_eq _ (byteAt_lt b 2), and255_eq _ (byteAt_lt b 1),
    and255_eq _ (byteAt_lt b 0)]
  unfold byteAt
  norm_num
  omega

theorem decodeFloat_eq (b : ℕ) : _decodeFloat b = (b / 2 ^ 52 % 2 ^ 11, b % 2 ^ 52) := by
  exact Prod.ext (decodeFloat_fst b) (decodeFloat_snd b)

/-- Flipping the sign bit leaves both decoded fields unchanged. -/
theorem decodeFloat_signflip (b : ℕ) :
    _decodeFloat (b + 2 ^ 63) = _decodeFloat b := by
  rw [decodeFloat_eq, decodeFloat_eq]
  simp only [Prod.mk.injEq]
  norm_num
  omega

/-- Masking the sign bit leaves both decoded fields unchanged. -/
theorem decodeFloat_mask (b : ℕ) :
    _decodeFloat (b % 2 ^ 63) = _decodeFloat b := by
  rw [decodeFloat_eq, decodeFloat_eq]
  simp only [Prod.mk.injEq]
  norm_num
  omega

/-! Closed form of the exact-value computation. -/

theorem two_zpow_ne_zero (z : ℤ) : ((2 : ℚ) ^ z) ≠ 0 :=
  zpow_ne_zero z (by norm_num)

theorem two_zpow_pos (z : ℤ) : (0 : ℚ) < 2 ^ z :=
  zpow_pos (by norm_num) z

theorem qpow2_eq (z : ℤ) : qpow2 z = (2 : ℚ) ^ z := by
  unfold qpow2
  by_cases hz : 0 ≤ z
  · rw [if_pos hz]
    push_cast
    rw [← zpow_natCast (2 : ℚ) z.toNat, Int.toNat_of_nonneg hz]
  · rw [if_neg hz]
    push_cast
    rw [← zpow_natCast (2 : ℚ) (-z).toNat, ← zpow_neg, Int.toNat_of_nonneg (by omega), neg_neg]

theorem qpow10_eq (z : ℤ) : qpow10 z = (10 : ℚ) ^ z := by
  unfold qpow10
  by_cases hz : 0 ≤ z
  · rw [if_pos hz]
    push_cast
    rw [← zpow_natCast (10 : ℚ) z.toNat, Int.toNat_of_nonneg hz]
  · rw [if_neg hz]
    push_cast
    rw [← zpow_natCast (10 : ℚ) (-z).toNat, ← zpow_neg, Int.toNat_of_nonneg (by omega), neg_neg]

theorem overflowThreshold_eq : overflowThreshold = (2 : ℚ) ^ 1024 - 2 ^ 970 := by
  unfold overflowThreshold
  norm_num

/-- The value computed from decoded fields, in the closed form
`m * 2 ^ (-1074)` (subnormal) or `(2^52 + m) * 2 ^ (e - 1075)` (normal). -/
theorem exactFromFields_closed (e m : ℕ) :
    _exactFromFields e m =
      if e = 0 then (m : ℚ) * 2 ^ (-1074 : ℤ)
      else ((2 ^ 52 + m : ℕ) : ℚ) * 2 ^ ((e : ℤ) - 1075) := by
  unfold _exactFromFields
  rw [qpow2_eq]
  by_cases he : e = 0
  · rw [if_pos he, if_pos he, if_pos he, add_zero, div_eq_mul_inv, mul_assoc]
    congr 1
    have h1 : ((2 : ℚ) ^ (52 : ℕ))⁻¹ = 2 ^ (-52 : ℤ) := by
      rw [← zpow_natCast (2 : ℚ) 52, ← zpow_neg]
      norm_num
    rw [h1, ← zpow_add₀ (by norm_num : (2 : ℚ) ≠ 0)]
    congr 1
  · rw [if_neg he, if_neg he, if_neg he]
    have h2 : (2 : ℚ) ^ ((e : ℤ) - 1023) = 2 ^ (52 : ℕ) * 2 ^ ((e : ℤ) - 1075) := by
      rw [← zpow_natCast (2 : ℚ) 52, ← zpow_add₀ (by norm_num : (2 : ℚ) ≠ 0)]
      congr 1
      omega
    rw [h2, ← mul_assoc]
    congr 1
    have h3 : ((2 ^ 52 + m : ℕ) : ℚ) = 2 ^ 52 + (m : ℚ) := by
      push_cast
      ring
    rw [h3, add_mul, div_mul_cancel₀ _ (by positivity : ((2 : ℚ) ^ (52 : ℕ)) ≠ 0), one_mul,
      add_comm]

/-- Closed form of `_getExactDecimal` in terms of the bit fields. -/
theorem getExactDecimal_closed (b : ℕ) :
    _getExactDecimal b =
      if b / 2 ^ 52 % 2 ^ 11 = 0 then ((b % 2 ^ 52 : ℕ) : ℚ) * 2 ^ (-1074 : ℤ)
      else ((2 ^ 52 + b % 2 ^ 52 : ℕ) : ℚ) * 2 ^ ((b / 2 ^ 52 % 2 ^ 11 : ℕ) - (1075 : ℤ)) := by
  unfold _getExactDecimal
  rw [decodeFloat_fst, decodeFloat_snd, exactFromFields_closed]

/-- The exact value computed by the source equals the reference (spec-side)
value of the pattern with the sign bit cleared. -/
theorem getExactDecimal_eq_refValue_abs (b : ℕ) :
    _getExactDecimal b = refValue (b % 2 ^ 63) := by
  have hsign : ¬ b % 2 ^ 63 / 2 ^ 63 % 2 = 1 := by
    have h : b % 2 ^ 63 < 2 ^ 63 := Nat.mod_lt _ (by norm_num)
    have h0 : b % 2 ^ 63 / 2 ^ 63 = 0 := Nat.div_eq_of_lt h
    rw [h0]
    omega
  have hE : b % 2 ^ 63 / 2 ^ 52 % 2 ^ 11 = b / 2 ^ 52 % 2 ^ 11 := by
    have e63 : (2 : ℕ) ^ 63 = 9223372036854775808 := by norm_num
    have e52 : (2 : ℕ) ^ 52 = 4503599627370496 := by norm_num
    have e11 : (2 : ℕ) ^ 11 = 2048 := by norm_num
    rw [e63, e52, e11]
    omega
  have hM : b % 2 ^ 63 % 2 ^ 52 = b % 2 ^ 52 := by
    have e63 : (2 : ℕ) ^ 63 = 9223372036854775808 := by norm_num
    have e52 : (2 : ℕ) ^ 52 = 4503599627370496 := by norm_num
    rw [e63, e52]
    omega
  unfold refValue
  rw [if_neg hsign, hE, hM, one_mul]
  unfold _getExactDecimal
  rw [decodeFloat_fst, decodeFloat_snd]
  unfold _exactFromFields
  rw [qpow2_eq]
  by_cases he : b / 2 ^ 52 % 2 ^ 11 = 0
  · rw [if_pos he, if_pos he, if_pos he, add_zero]
  · rw [if_neg he, if_neg he, if_neg he]

/-! Correctness of the fuel-based binary logarithms and of `qlog2`. -/

theorem log2fuel_spec (f : ℕ) : ∀ n, 1 ≤ n → n ≤ f →
    2 ^ log2fuel f n ≤ n ∧ n < 2 ^ (log2fuel f n + 1) := by
  induction f with
  | zero => intro n h1 h2; omega
  | succ f ih =>
    intro n h1 h2
    rw [log2fuel]
    by_cases hn : n ≤ 1
    · rw [if_pos hn]
      norm_num
      omega
    · rw [if_neg hn]
      have h1' : 1 ≤ n / 2 := by omega
      have h2' : n / 2 ≤ f := by omega
      obtain ⟨ha, hb⟩ := ih (n / 2) h1' h2'
      rw [pow_succ] at hb
      constructor
      · rw [pow_succ]
        omega
      · rw [pow_succ, pow_succ]
        omega

theorem clog2fuel_one (f : ℕ) : clog2fuel f 1 = 0 := by
  cases f with
  | zero => rfl
  | succ f => rw [clog2fuel]; norm_num

theorem clog2fuel_spec (f : ℕ) : ∀ n, 1 ≤ n → n ≤ f →
    n ≤ 2 ^ clog2fuel f n ∧ (2 ≤ n → 2 ^ (clog2fuel f n - 1) < n) := by
  induction f with
  | zero => intro n h1 h2; omega
  | succ f ih =>
    intro n h1 h2
    rw [clog2fuel]
    by_cases hn : n ≤ 1
    · rw [if_pos hn]
      norm_num
      omega
    · rw [if_neg hn]
      have h1' : 1 ≤ (n + 1) / 2 := by omega
      have h2' : (n + 1) / 2 ≤ f := by omega
      obtain ⟨ha, hb⟩ := ih ((n + 1) / 2) h1' h2'
      constructor
      · rw [pow_succ]
        omega
      · intro _
        simp only [Nat.add_sub_cancel]
        by_cases hm : (n + 1) / 2 = 1
        · rw [hm, clog2fuel_one]
          norm_num
          omega
        · have hm2 : 2 ≤ (n + 1) / 2 := by omega
          have hbb := hb hm2
          have hc1 : 1 ≤ clog2fuel f ((n + 1) / 2) := by
            by_contra hc0
            have hc : clog2fuel f ((n + 1) / 2) = 0 := by omega
            rw [hc] at ha
            norm_num at ha
            omega
          have hsplit : 2 ^ clog2fuel f ((n + 1) / 2) =
              2 * 2 ^ (clog2fuel f ((n + 1) / 2) - 1) := by
            cases hcc : clog2fuel f ((n + 1) / 2) with
            | zero => omega
            | succ c0 =>
              rw [pow_succ, Nat.succ_sub_one]
              ring
          omega

theorem qlog2_spec (q : ℚ) (hq : 0 < q) :
    (2 : ℚ) ^ qlog2 q ≤ q ∧ q < 2 ^ (qlog2 q + 1) := by
  unfold qlog2
  by_cases h1 : 1 ≤ q
  · rw [if_pos h1]
    have hfl : (1 : ℤ) ≤ ⌊q⌋ := by
      rw [Int.le_floor]
      exact_mod_cast h1
    have htn : (⌊q⌋.toNat : ℤ) = ⌊q⌋ := Int.toNat_of_nonneg (by omega)
    have hn1 : 1 ≤ ⌊q⌋.toNat := by omega
    obtain ⟨ha, hb⟩ := log2fuel_spec ⌊q⌋.toNat ⌊q⌋.toNat hn1 le_rfl
    constructor
    · rw [zpow_natCast]
      calc ((2 : ℚ) ^ log2fuel ⌊q⌋.toNat ⌊q⌋.toNat) ≤ (⌊q⌋.toNat : ℚ) := by
            exact_mod_cast ha
        _ = ((⌊q⌋ : ℤ) : ℚ) := by exact_mod_cast htn
        _ ≤ q := Int.floor_le q
    · have hq1 : q < (⌊q⌋.toNat : ℚ) + 1 := by
        have := Int.lt_floor_add_one q
        have hcast : ((⌊q⌋ : ℤ) : ℚ) = (⌊q⌋.toNat : ℚ) := by exact_mod_cast htn.symm
        rw [hcast] at this
        exact this
      have hb' : (⌊q⌋.toNat : ℚ) + 1 ≤ 2 ^ (log2fuel ⌊q⌋.toNat ⌊q⌋.toNat + 1) := by
        exact_mod_cast hb
      have : ((log2fuel ⌊q⌋.toNat ⌊q⌋.toNat : ℤ) + 1) = ((log2fuel ⌊q⌋.toNat ⌊q⌋.toNat + 1 : ℕ) : ℤ) := by
        push_cast
        ring
      rw [this, zpow_natCast]
      calc q < (⌊q⌋.toNat : ℚ) + 1 := hq1
        _ ≤ _ := hb'
  · rw [if_neg h1]
    push_neg at h1
    have hr : 1 < q⁻¹ := (one_lt_inv₀ hq).mpr h1
    have hrpos : 0 < q⁻¹ := by positivity
    have hce : (2 : ℤ) ≤ ⌈q⁻¹⌉ := by
      have : (1 : ℤ) < ⌈q⁻¹⌉ := by
        rw [Int.lt_ceil]
        exact_mod_cast hr
      omega
    have htn : (⌈q⁻¹⌉.toNat : ℤ) = ⌈q⁻¹⌉ := Int.toNat_of_nonneg (by omega)
    have hm2 : 2 ≤ ⌈q⁻¹⌉.toNat := by omega
    obtain ⟨ha, hb⟩ := clog2fuel_spec ⌈q⁻¹⌉.toNat ⌈q⁻¹⌉.toNat (by omega) le_rfl
    have hbb := hb hm2
    have hc1 : 1 ≤ clog2fuel ⌈q⁻¹⌉.toNat ⌈q⁻¹⌉.toNat := by
      by_contra hc0
      have hc : clog2fuel ⌈q⁻¹⌉.toNat ⌈q⁻¹⌉.toNat = 0 := by omega
      rw [hc] at ha
      norm_num at ha
      omega
    constructor
    · rw [zpow_neg, zpow_natCast]
      have hup : q⁻¹ ≤ (2 : ℚ) ^ clog2fuel ⌈q⁻¹⌉.toNat ⌈q⁻¹⌉.toNat := by
        calc q⁻¹ ≤ ((⌈q⁻¹⌉ : ℤ) : ℚ) := Int.le_ceil q⁻¹
          _ = (⌈q⁻¹⌉.toNat : ℚ) := by exact_mod_cast htn.symm
          _ ≤ _ := by exact_mod_cast ha
      calc ((2 : ℚ) ^ clog2fuel ⌈q⁻¹⌉.toNat ⌈q⁻¹⌉.toNat)⁻¹
          ≤ (q⁻¹)⁻¹ := inv_anti₀ hrpos hup
        _ = q := inv_inv q
    · have hlow : (2 : ℚ) ^ (clog2fuel ⌈q⁻¹⌉.toNat ⌈q⁻¹⌉.toNat - 1) < q⁻¹ := by
        have : ((2 ^ (clog2fuel ⌈q⁻¹⌉.toNat ⌈q⁻¹⌉.toNat - 1) : ℕ) : ℤ) < ⌈q⁻¹⌉ := by
          omega
        have h2 := Int.lt_ceil.mp this
        exact_mod_cast h2
      have hstep : q < ((2 : ℚ) ^ (clog2fuel ⌈q⁻¹⌉.toNat ⌈q⁻¹⌉.toNat - 1))⁻¹ := by
        calc q = (q⁻¹)⁻¹ := (inv_inv q).symm
          _ < _ := inv_strictAnti₀ (by positivity) hlow
      have hexp : (-(clog2fuel ⌈q⁻¹⌉.toNat ⌈q⁻¹⌉.toNat : ℤ) + 1) =
          -((clog2fuel ⌈q⁻¹⌉.toNat ⌈q⁻¹⌉.toNat - 1 : ℕ) : ℤ) := by
        omega
      rw [hexp, zpow_neg, zpow_natCast]
      exact hstep

theorem qlog2_unique (q : ℚ) (hq : 0 < q) (a : ℤ) (h1 : (2 : ℚ) ^ a ≤ q)
    (h2 : q < 2 ^ (a + 1)) : qlog2 q = a := by
  obtain ⟨ha, hb⟩ := qlog2_spec q hq
  by_contra hne
  rcases lt_or_gt_of_ne hne with hlt | hgt
  · have : (2 : ℚ) ^ (qlog2 q + 1) ≤ 2 ^ a := zpow_le_zpow_right₀ (by norm_num) (by omega)
    linarith
  · have : (2 : ℚ) ^ (a + 1) ≤ 2 ^ qlog2 q := zpow_le_zpow_right₀ (by norm_num) (by omega)
    linarith

/-! Properties of round-half-even and of the rounding function. -/

theorem two_neQ : (2 : ℚ) ≠ 0 := by norm_num

theorem rhe_natCast (n : ℕ) : rhe ((n : ℕ) : ℚ) = n := by
  unfold rhe
  rw [Int.floor_natCast]
  norm_num

theorem rhe_le_of_lt (q : ℚ) (n : ℕ) (h0 : 0 ≤ q) (h : q < (n : ℚ) + 1 / 2) :
    rhe q ≤ n := by
  unfold rhe
  have hf0 : (0 : ℤ) ≤ ⌊q⌋ := Int.floor_nonneg.mpr h0
  have htn : ((⌊q⌋.toNat : ℕ) : ℚ) = ((⌊q⌋ : ℤ) : ℚ) := by
    exact_mod_cast Int.toNat_of_nonneg hf0
  have hfl : ((⌊q⌋.toNat : ℕ) : ℚ) ≤ q := by
    rw [htn]
    exact Int.floor_le q
  have hkn : ⌊q⌋.toNat ≤ n := by
    have hlt : ((⌊q⌋.toNat : ℕ) : ℚ) < ((n + 1 : ℕ) : ℚ) := by
      push_cast
      linarith
    have := Nat.cast_lt.mp hlt
    omega
  split_ifs with h1 h2 h3
  · exact hkn
  · have hlt : ((⌊q⌋.toNat : ℕ) : ℚ) < (n : ℚ) := by linarith
    have := Nat.cast_lt.mp hlt
    omega
  · exact hkn
  · have heq : q - ((⌊q⌋.toNat : ℕ) : ℚ) = 1 / 2 :=
      le_antisymm (not_lt.mp h2) (not_lt.mp h1)
    have hlt : ((⌊q⌋.toNat : ℕ) : ℚ) < (n : ℚ) := by linarith
    have := Nat.cast_lt.mp hlt
    omega

/-- Rounding the exact value of a finite nonnegative pattern gives back the
pattern: representable values survive `toNumber` unchanged. -/
theorem roundPos_getExactDecimal (b : ℕ) (hb : b < 2 ^ 63) (hE : b / 2 ^ 52 ≤ 2046) :
    roundPos (_getExactDecimal b) = some b := by
  have hEdiv : b / 2 ^ 52 < 2 ^ 11 :=
    Nat.div_lt_of_lt_mul (by norm_num at hb ⊢; omega)
  have hEm : b / 2 ^ 52 % 2 ^ 11 = b / 2 ^ 52 := Nat.mod_eq_of_lt hEdiv
  rw [getExactDecimal_closed, hEm]
  by_cases hE0 : b / 2 ^ 52 = 0
  · rw [if_pos hE0]
    by_cases hM0 : b % 2 ^ 52 = 0
    · have hb0 : b = 0 := by omega
      subst hb0
      norm_num [roundPos]
    · have hMpos : 0 < b % 2 ^ 52 := Nat.pos_of_ne_zero hM0
      have hMQ : (0 : ℚ) < ((b % 2 ^ 52 : ℕ) : ℚ) := by exact_mod_cast hMpos
      have hbM : b = b % 2 ^ 52 := by omega
      have hqpos : (0 : ℚ) < ((b % 2 ^ 52 : ℕ) : ℚ) * 2 ^ (-1074 : ℤ) :=
        mul_pos hMQ (two_zpow_pos _)
      have hMlt : ((b % 2 ^ 52 : ℕ) : ℚ) < 2 ^ (52 : ℕ) := by
        exact_mod_cast Nat.mod_lt b (show 0 < 2 ^ 52 by norm_num)
      have hqlt : ((b % 2 ^ 52 : ℕ) : ℚ) * 2 ^ (-1074 : ℤ) < 2 ^ (-1022 : ℤ) := by
        calc ((b % 2 ^ 52 : ℕ) : ℚ) * 2 ^ (-1074 : ℤ)
            < 2 ^ (52 : ℕ) * 2 ^ (-1074 : ℤ) :=
              mul_lt_mul_of_pos_right hMlt (two_zpow_pos _)
          _ = 2 ^ (-1022 : ℤ) := by
              rw [← zpow_natCast (2 : ℚ) 52, ← zpow_add₀ two_neQ]
              norm_num
      have hql : qlog2 (((b % 2 ^ 52 : ℕ) : ℚ) * 2 ^ (-1074 : ℤ)) < -1022 := by
        by_contra hc
        push_neg at hc
        have hA := (qlog2_spec _ hqpos).1
        have h2 : (2 : ℚ) ^ (-1022 : ℤ) ≤ 2 ^ qlog2 (((b % 2 ^ 52 : ℕ) : ℚ) * 2 ^ (-1074 : ℤ)) :=
          zpow_le_zpow_right₀ (by norm_num) hc
        linarith
      have hsmall : (2 : ℚ) ^ (-1022 : ℤ) ≤ 1 := by
        rw [zpow_neg]
        rw [show ((1022 : ℤ)) = ((1022 : ℕ) : ℤ) by norm_num, zpow_natCast]
        rw [inv_le_one_iff₀]
        right
        norm_num
      have hthr : ¬ ((2 : ℚ) ^ 1024 - 2 ^ 970 ≤ ((b % 2 ^ 52 : ℕ) : ℚ) * 2 ^ (-1074 : ℤ)) := by
        push_neg
        have hbig : (1 : ℚ) ≤ 2 ^ 1024 - 2 ^ 970 := by norm_num
        linarith
      unfold roundPos
      rw [overflowThreshold_eq, qpow2_eq]
      rw [if_neg (not_le.mpr hqpos), if_neg hthr]
      rw [max_eq_right (le_of_lt hql)]
      have hcollapse : ((b % 2 ^ 52 : ℕ) : ℚ) * 2 ^ (-1074 : ℤ) * 2 ^ ((52 : ℤ) - (-1022)) =
          ((b % 2 ^ 52 : ℕ) : ℚ) := by
        rw [mul_assoc, ← zpow_add₀ two_neQ]
        norm_num
      rw [hcollapse, rhe_natCast]
      norm_num
      omega
  · rw [if_neg hE0]
    have hE1 : 1 ≤ b / 2 ^ 52 := Nat.pos_of_ne_zero hE0
    have hM52 : b % 2 ^ 52 < 2 ^ 52 := Nat.mod_lt _ (by norm_num)
    have hdm := Nat.div_add_mod b (2 ^ 52)
    have hcast : ((2 ^ 52 + b % 2 ^ 52 : ℕ) : ℚ) = 2 ^ (52 : ℕ) + ((b % 2 ^ 52 : ℕ) : ℚ) := by
      push_cast
      ring
    have hMQ0 : (0 : ℚ) ≤ ((b % 2 ^ 52 : ℕ) : ℚ) := by positivity
    have hlow : (2 : ℚ) ^ (52 : ℕ) ≤ ((2 ^ 52 + b % 2 ^ 52 : ℕ) : ℚ) := by
      rw [hcast]
      linarith
    have hMltQ : ((b % 2 ^ 52 : ℕ) : ℚ) < 2 ^ (52 : ℕ) := by exact_mod_cast hM52
    have hhigh : ((2 ^ 52 + b % 2 ^ 52 : ℕ) : ℚ) < 2 ^ (53 : ℕ) := by
      rw [hcast]
      have h5253 : (2 : ℚ) ^ (53 : ℕ) = 2 ^ (52 : ℕ) + 2 ^ (52 : ℕ) := by norm_num
      linarith
    have hqpos : (0 : ℚ) < ((2 ^ 52 + b % 2 ^ 52 : ℕ) : ℚ) * 2 ^ ((b / 2 ^ 52 : ℕ) - (1075 : ℤ)) :=
      mul_pos (lt_of_lt_of_le (by positivity) hlow) (two_zpow_pos _)
    have hql : qlog2 (((2 ^ 52 + b % 2 ^ 52 : ℕ) : ℚ) * 2 ^ ((b / 2 ^ 52 : ℕ) - (1075 : ℤ))) =
        ((b / 2 ^ 52 : ℕ) : ℤ) - 1023 := by
      apply qlog2_unique _ hqpos
      · calc (2 : ℚ) ^ (((b / 2 ^ 52 : ℕ) : ℤ) - 1023)
            = 2 ^ (52 : ℕ) * 2 ^ (((b / 2 ^ 52 : ℕ) : ℤ) - 1075) := by
              rw [← zpow_natCast (2 : ℚ) 52, ← zpow_add₀ two_neQ]
              congr 1
              ring
          _ ≤ ((2 ^ 52 + b % 2 ^ 52 : ℕ) : ℚ) * 2 ^ (((b / 2 ^ 52 : ℕ) : ℤ) - 1075) :=
              mul_le_mul_of_nonneg_right hlow (le_of_lt (two_zpow_pos _))
      · calc ((2 ^ 52 + b % 2 ^ 52 : ℕ) : ℚ) * 2 ^ (((b / 2 ^ 52 : ℕ) : ℤ) - 1075)
            < 2 ^ (53 : ℕ) * 2 ^ (((b / 2 ^ 52 : ℕ) : ℤ) - 1075) :=
              mul_lt_mul_of_pos_right hhigh (two_zpow_pos _)
          _ = 2 ^ (((b / 2 ^ 52 : ℕ) : ℤ) - 1023 + 1) := by
              rw [← zpow_natCast (2 : ℚ) 53, ← zpow_add₀ two_neQ]
              congr 1
              ring
    have hmax : max (qlog2 (((2 ^ 52 + b % 2 ^ 52 : ℕ) : ℚ) * 2 ^ ((b / 2 ^ 52 : ℕ) - (1075 : ℤ))))
        (-1022) = ((b / 2 ^ 52 : ℕ) : ℤ) - 1023 := by
      rw [hql]
      apply max_eq_left
      have : (1 : ℤ) ≤ ((b / 2 ^ 52 : ℕ) : ℤ) := by exact_mod_cast hE1
      omega
    have hq53 : ((2 ^ 52 + b % 2 ^ 52 : ℕ) : ℚ) ≤ 2 ^ (53 : ℕ) - 1 := by
      have h1 : (2 ^ 52 + b % 2 ^ 52 : ℕ) ≤ 2 ^ 53 - 1 := by omega
      calc ((2 ^ 52 + b % 2 ^ 52 : ℕ) : ℚ) ≤ ((2 ^ 53 - 1 : ℕ) : ℚ) := by exact_mod_cast h1
        _ = 2 ^ (53 : ℕ) - 1 := by norm_num
    have hexpb : (2 : ℚ) ^ (((b / 2 ^ 52 : ℕ) : ℤ) - 1075) ≤ 2 ^ (971 : ℤ) := by
      apply zpow_le_zpow_right₀ (by norm_num)
      have : ((b / 2 ^ 52 : ℕ) : ℤ) ≤ 2046 := by exact_mod_cast hE
      omega
    have hthr : ¬ ((2 : ℚ) ^ 1024 - 2 ^ 970 ≤
        ((2 ^ 52 + b % 2 ^ 52 : ℕ) : ℚ) * 2 ^ ((b / 2 ^ 52 : ℕ) - (1075 : ℤ))) := by
      push_neg
      have hstep : ((2 ^ 52 + b % 2 ^ 52 : ℕ) : ℚ) * 2 ^ (((b / 2 ^ 52 : ℕ) : ℤ) - 1075) ≤
          (2 ^ (53 : ℕ) - 1) * 2 ^ (971 : ℤ) := by
        calc ((2 ^ 52 + b % 2 ^ 52 : ℕ) : ℚ) * 2 ^ (((b / 2 ^ 52 : ℕ) : ℤ) - 1075)
            ≤ (2 ^ (53 : ℕ) - 1) * 2 ^ (((b / 2 ^ 52 : ℕ) : ℤ) - 1075) :=
              mul_le_mul_of_nonneg_right hq53 (le_of_lt (two_zpow_pos _))
          _ ≤ (2 ^ (53 : ℕ) - 1) * 2 ^ (971 : ℤ) :=
              mul_le_mul_of_nonneg_left hexpb (by norm_num)
      have hfin : ((2 : ℚ) ^ (53 : ℕ) - 1) * 2 ^ (971 : ℤ) < 2 ^ 1024 - 2 ^ 970 := by
        rw [show ((971 : ℤ)) = ((971 : ℕ) : ℤ) by norm_num, zpow_natCast]
        norm_num
      linarith
    unfold roundPos
    rw [overflowThreshold_eq, qpow2_eq]
    rw [if_neg (not_le.mpr hqpos), if_neg hthr, hmax]
    have hcollapse : ((2 ^ 52 + b % 2 ^ 52 : ℕ) : ℚ) * 2 ^ ((b / 2 ^ 52 : ℕ) - (1075 : ℤ)) *
        2 ^ ((52 : ℤ) - (((b / 2 ^ 52 : ℕ) : ℤ) - 1023)) = ((2 ^ 52 + b % 2 ^ 52 : ℕ) : ℚ) := by
      rw [mul_assoc, ← zpow_add₀ two_neQ]
      rw [show ((b / 2 ^ 52 : ℕ) : ℤ) - 1075 + ((52 : ℤ) - (((b / 2 ^ 52 : ℕ) : ℤ) - 1023)) =
        0 by ring]
      rw [zpow_zero, mul_one]
    rw [hcollapse, rhe_natCast]
    congr 1
    have htn : ((((b / 2 ^ 52 : ℕ) : ℤ) - 1023) + 1022).toNat = b / 2 ^ 52 - 1 := by
      have : (1 : ℤ) ≤ ((b / 2 ^ 52 : ℕ) : ℤ) := by exact_mod_cast hE1
      omega
    rw [htn]
    have h52 : (2 : ℕ) ^ 52 = 4503599627370496 := by norm_num
    rw [h52] at *
    omega

/-- When rounding does not overflow, the result is a nonnegative finite
pattern: below `2^63` with exponent field at most 2046. -/
theorem roundPos_bounds (q : ℚ) (r : ℕ) (h : roundPos q = some r) :
    r < 2 ^ 63 ∧ r / 2 ^ 52 ≤ 2046 := by
  unfold roundPos at h
  rw [overflowThreshold_eq, qpow2_eq] at h
  by_cases h0 : q ≤ 0
  · rw [if_pos h0] at h
    injection h with h
    subst h
    norm_num
  · rw [if_neg h0] at h
    by_cases hth : (2 : ℚ) ^ 1024 - 2 ^ 970 ≤ q
    · rw [if_pos hth] at h
      cases h
    · rw [if_neg hth] at h
      injection h with h
      push_neg at h0 hth
      obtain ⟨hA, hB⟩ := qlog2_spec q h0
      have hql_le : qlog2 q ≤ 1023 := by
        by_contra hc
        push_neg at hc
        have hmono : (2 : ℚ) ^ (1024 : ℤ) ≤ 2 ^ qlog2 q :=
          zpow_le_zpow_right₀ (by norm_num) (by omega)
        have h1024 : (2 : ℚ) ^ (1024 : ℤ) = 2 ^ (1024 : ℕ) := by
          rw [show ((1024 : ℤ)) = ((1024 : ℕ) : ℤ) by norm_num, zpow_natCast]
        have hbig : (2 : ℚ) ^ (970 : ℕ) ≤ 2 ^ (1024 : ℕ) := by norm_num
        nlinarith [hA, hmono, h1024]
      have hqe : q < 2 ^ (max (qlog2 q) (-1022) + 1) :=
        lt_of_lt_of_le hB (zpow_le_zpow_right₀ (by norm_num) (by omega))
      have hxlt : q * 2 ^ ((52 : ℤ) - max (qlog2 q) (-1022)) < 2 ^ (53 : ℕ) := by
        calc q * 2 ^ ((52 : ℤ) - max (qlog2 q) (-1022))
            < 2 ^ (max (qlog2 q) (-1022) + 1) * 2 ^ ((52 : ℤ) - max (qlog2 q) (-1022)) :=
              mul_lt_mul_of_pos_right hqe (two_zpow_pos _)
          _ = 2 ^ (53 : ℕ) := by
              rw [← zpow_add₀ two_neQ,
                show max (qlog2 q) (-1022) + 1 + ((52 : ℤ) - max (qlog2 q) (-1022)) = 53 by ring,
                show ((53 : ℤ)) = ((53 : ℕ) : ℤ) by norm_num, zpow_natCast]
      have hx0 : (0 : ℚ) ≤ q * 2 ^ ((52 : ℤ) - max (qlog2 q) (-1022)) :=
        le_of_lt (mul_pos h0 (two_zpow_pos _))
      have hm53 : rhe (q * 2 ^ ((52 : ℤ) - max (qlog2 q) (-1022))) ≤ 2 ^ 53 := by
        apply rhe_le_of_lt _ _ hx0
        have : ((2 ^ 53 : ℕ) : ℚ) = 2 ^ (53 : ℕ) := by norm_num
        rw [this]
        linarith
      have hmtop : max (qlog2 q) (-1022) = 1023 →
          rhe (q * 2 ^ ((52 : ℤ) - max (qlog2 q) (-1022))) ≤ 2 ^ 53 - 1 := by
        intro hqm
        apply rhe_le_of_lt _ _ hx0
        rw [hqm]
        have hq2 : q * 2 ^ ((52 : ℤ) - 1023) < ((2 : ℚ) ^ 1024 - 2 ^ 970) * 2 ^ ((52 : ℤ) - 1023) :=
          mul_lt_mul_of_pos_right hth (two_zpow_pos _)
        have hsplit : ((2 : ℚ) ^ 1024 - 2 ^ 970) * 2 ^ ((52 : ℤ) - 1023) =
            2 ^ (53 : ℕ) - 1 / 2 := by
          have ha : (2 : ℚ) ^ (1024 : ℕ) * 2 ^ ((52 : ℤ) - 1023) = 2 ^ (53 : ℕ) := by
            rw [← zpow_natCast (2 : ℚ) 1024, ← zpow_add₀ two_neQ,
              show ((1024 : ℕ) : ℤ) + ((52 : ℤ) - 1023) = ((53 : ℕ) : ℤ) by norm_num,
              zpow_natCast]
          have hb2 : (2 : ℚ) ^ (970 : ℕ) * 2 ^ ((52 : ℤ) - 1023) = 1 / 2 := by
            rw [← zpow_natCast (2 : ℚ) 970, ← zpow_add₀ two_neQ,
              show ((970 : ℕ) : ℤ) + ((52 : ℤ) - 1023) = (-1 : ℤ) by norm_num]
            norm_num
          calc ((2 : ℚ) ^ 1024 - 2 ^ 970) * 2 ^ ((52 : ℤ) - 1023)
              = 2 ^ (1024 : ℕ) * 2 ^ ((52 : ℤ) - 1023) -
                2 ^ (970 : ℕ) * 2 ^ ((52 : ℤ) - 1023) := by ring
            _ = 2 ^ (53 : ℕ) - 1 / 2 := by rw [ha, hb2]
        have hfin : ((2 ^ 53 - 1 : ℕ) : ℚ) + 1 / 2 = 2 ^ (53 : ℕ) - 1 / 2 := by
          norm_num
        rw [hfin, ← hsplit]
        exact hq2
      have htnle : (max (qlog2 q) (-1022) + 1022).toNat ≤ 2045 := by
        have : max (qlog2 q) (-1022) ≤ 1023 := max_le hql_le (by norm_num)
        omega
      by_cases hqm : max (qlog2 q) (-1022) = 1023
      · have hm := hmtop hqm
        have htn2045 : (max (qlog2 q) (-1022) + 1022).toNat = 2045 := by
          rw [hqm]
          rfl
        rw [htn2045] at h
        norm_num at h hm
        omega
      · have htn2044 : (max (qlog2 q) (-1022) + 1022).toNat ≤ 2044 := by
          have hle : max (qlog2 q) (-1022) ≤ 1023 := max_le hql_le (by norm_num)
          have hge : -1022 ≤ max (qlog2 q) (-1022) := le_max_right _ _
          omega
        norm_num at h hm53
        omega

/-- Rounding a value strictly below the overflow threshold succeeds. -/
theorem roundPos_isSome (q : ℚ) (h : q < 2 ^ 1024 - 2 ^ 970) :
    ∃ r, roundPos q = some r := by
  unfold roundPos
  rw [overflowThreshold_eq]
  by_cases h0 : q ≤ 0
  · exact ⟨0, by rw [if_pos h0]⟩
  · rw [if_neg h0, if_neg (not_le.mpr h)]
    exact ⟨_, rfl⟩

/-- Rounding a value at or above the overflow threshold fails. -/
theorem roundPos_none (q : ℚ) (h : (2 : ℚ) ^ 1024 - 2 ^ 970 ≤ q) :
    roundPos q = none := by
  have hpos : (0 : ℚ) < 2 ^ 1024 - 2 ^ 970 := by norm_num
  unfold roundPos
  rw [overflowThreshold_eq]
  rw [if_neg (not_le.mpr (lt_of_lt_of_le hpos h)), if_pos h]

/-! Properties of the digit rendering and parsing helpers. -/

theorem natDigitsAux_zero (f : ℕ) : natDigitsAux f 0 = [] := by
  cases f with
  | zero => rfl
  | succ f => rw [natDigitsAux, if_pos rfl]

theorem unDigits_natDigitsAux (f : ℕ) : ∀ n, n ≤ f → unDigits (natDigitsAux f n) = n := by
  induction f with
  | zero =>
    intro n h
    have : n = 0 := by omega
    subst this
    rfl
  | succ f ih =>
    intro n h
    rw [natDigitsAux]
    by_cases hn : n = 0
    · rw [if_pos hn, hn]
      rfl
    · rw [if_neg hn, unDigits, ih (n / 10) (by omega)]
      omega

theorem natDigitsAux_lt_ten (f : ℕ) : ∀ n d, d ∈ natDigitsAux f n → d < 10 := by
  induction f with
  | zero =>
    intro n d h
    simp [natDigitsAux] at h
  | succ f ih =>
    intro n d h
    rw [natDigitsAux] at h
    by_cases hn : n = 0
    · rw [if_pos hn] at h
      simp at h
    · rw [if_neg hn] at h
      rcases List.mem_cons.mp h with h1 | h2
      · subst h1
        omega
      · exact ih _ _ h2

theorem natDigitsAux_length (f : ℕ) : ∀ n L, n ≤ f → n < 10 ^ L →
    (natDigitsAux f n).length ≤ L := by
  induction f with
  | zero =>
    intro n L h hL
    simp [natDigitsAux]
  | succ f ih =>
    intro n L h hL
    rw [natDigitsAux]
    by_cases hn : n = 0
    · rw [if_pos hn]
      simp
    · rw [if_neg hn]
      cases L with
      | zero =>
        norm_num at hL
        omega
      | succ L0 =>
        rw [List.length_cons]
        have hdiv : n / 10 < 10 ^ L0 := by
          rw [Nat.div_lt_iff_lt_mul (by norm_num)]
          calc n < 10 ^ (L0 + 1) := hL
            _ = 10 ^ L0 * 10 := by ring
        have := ih (n / 10) L0 (by omega) hdiv
        omega

theorem natDigitsAux_last (f : ℕ) : ∀ n, 0 < n → n ≤ f →
    ∃ d ds, natDigitsAux f n = ds ++ [d] ∧ 0 < d ∧ d < 10 := by
  induction f with
  | zero =>
    intro n h1 h2
    omega
  | succ f ih =>
    intro n h1 h2
    rw [natDigitsAux, if_neg (by omega : ¬ n = 0)]
    by_cases hq : n / 10 = 0
    · refine ⟨n % 10, [], ?_, by omega, by omega⟩
      rw [hq, natDigitsAux_zero]
      rfl
    · obtain ⟨d, ds, hds, hd1, hd2⟩ := ih (n / 10) (by omega) (by omega)
      exact ⟨d, n % 10 :: ds, by rw [hds]; rfl, hd1, hd2⟩

set_option maxRecDepth 8000 in
theorem digitVal_charOfDigit : ∀ d, d < 10 → digitVal (charOfDigit d) = d := by decide

set_option maxRecDepth 8000 in
theorem charOfDigit_isDigit : ∀ d, d < 10 → (charOfDigit d).isDigit = true := by decide

set_option maxRecDepth 8000 in
theorem charOfDigit_pos : ∀ d, d < 10 → 0 < d →
    ('1' ≤ charOfDigit d ∧ charOfDigit d ≤ '9') := by decide

theorem isDigit_ne_special (c : Char) (h : c.isDigit = true) :
    c ≠ 'e' ∧ c ≠ 'E' ∧ c ≠ '.' ∧ c ≠ '-' ∧ c ≠ '+' := by
  refine ⟨?_, ?_, ?_, ?_, ?_⟩ <;> intro he <;> subst he <;> exact absurd h (by decide)

theorem digitsVal_go (l : List Char) : ∀ a : ℕ,
    l.foldl (fun a c => 10 * a + digitVal c) a = a * 10 ^ l.length + digitsVal l := by
  induction l with
  | nil =>
    intro a
    simp [digitsVal]
  | cons c r ih =>
    intro a
    rw [List.foldl_cons, ih]
    have h2 : digitsVal (c :: r) = digitVal c * 10 ^ r.length + digitsVal r := by
      show (c :: r).foldl (fun a c => 10 * a + digitVal c) 0 = _
      rw [List.foldl_cons, ih]
      ring_nf
    rw [h2, List.length_cons]
    ring

theorem digitsVal_append (xs ys : List Char) :
    digitsVal (xs ++ ys) = digitsVal xs * 10 ^ ys.length + digitsVal ys := by
  show (xs ++ ys).foldl (fun a c => 10 * a + digitVal c) 0 = _
  rw [List.foldl_append, digitsVal_go]
  rfl

theorem digitsVal_reverse_map (L : List ℕ) (h : ∀ d ∈ L, d < 10) :
    digitsVal ((L.map charOfDigit).reverse) = unDigits L := by
  induction L with
  | nil => rfl
  | cons d ds ih =>
    rw [List.map_cons, List.reverse_cons, digitsVal_append,
      ih (fun x hx => h x (List.mem_cons_of_mem _ hx))]
    have hd : d < 10 := h d (List.mem_cons_self d ds)
    have h1 : digitsVal [charOfDigit d] = d := by
      show List.foldl (fun a c => 10 * a + digitVal c) 0 [charOfDigit d] = d
      rw [List.foldl_cons, List.foldl_nil, digitVal_charOfDigit d hd]
      omega
    rw [h1, unDigits]
    simp [List.length_singleton]
    ring

theorem digitsVal_natChars (n : ℕ) : digitsVal (natChars n) = n := by
  unfold natChars natDigits
  by_cases hn : n = 0
  · rw [if_pos hn, hn]
    rfl
  · rw [if_neg hn, digitsVal_reverse_map _ (natDigitsAux_lt_ten n n)]
    exact unDigits_natDigitsAux n n le_rfl

theorem unDigits_append_zeros (L : List ℕ) (k : ℕ) :
    unDigits (L ++ List.replicate k 0) = unDigits L := by
  induction L with
  | nil =>
    induction k with
    | zero => rfl
    | succ k ihk =>
      rw [List.nil_append] at ihk ⊢
      rw [List.replicate_succ]
      show 0 + 10 * unDigits (List.replicate k 0) = unDigits []
      rw [ihk]
      rfl
  | cons d ds ih =>
    rw [List.cons_append]
    show d + 10 * unDigits (ds ++ List.replicate k 0) = unDigits (d :: ds)
    rw [ih]
    rfl

theorem digitsVal_fracChars (m d : ℕ) : digitsVal (fracChars m d) = m := by
  unfold fracChars
  rw [digitsVal_reverse_map]
  · rw [unDigits_append_zeros]
    exact unDigits_natDigitsAux m m le_rfl
  · intro x hx
    rcases List.mem_append.mp hx with h1 | h2
    · exact natDigitsAux_lt_ten m m x h1
    · rw [List.eq_of_mem_replicate h2]
      norm_num

theorem fracChars_length (m d : ℕ) (h : m < 10 ^ d) : (fracChars m d).length = d := by
  unfold fracChars natDigits
  rw [List.length_reverse, List.length_map, List.length_append, List.length_replicate]
  have := natDigitsAux_length m m d le_rfl h
  omega

theorem allDigits_iff (l : List Char) : allDigits l = true ↔ ∀ c ∈ l, c.isDigit = true := by
  induction l with
  | nil => simp [allDigits]
  | cons c r ih => simp [allDigits, Bool.and_eq_true, ih]

theorem allDigits_natChars (n : ℕ) : allDigits (natChars n) = true := by
  rw [allDigits_iff]
  intro c hc
  unfold natChars natDigits at hc
  by_cases hn : n = 0
  · rw [if_pos hn] at hc
    simp at hc
    rw [hc]
    decide
  · rw [if_neg hn] at hc
    rw [List.mem_reverse] at hc
    obtain ⟨d, hd, rfl⟩ := List.mem_map.mp hc
    exact charOfDigit_isDigit d (natDigitsAux_lt_ten n n d hd)

theorem allDigits_fracChars (m d : ℕ) : allDigits (fracChars m d) = true := by
  rw [allDigits_iff]
  intro c hc
  unfold fracChars natDigits at hc
  rw [List.mem_reverse] at hc
  obtain ⟨x, hx, rfl⟩ := List.mem_map.mp hc
  rcases List.mem_append.mp hx with h1 | h2
  · exact charOfDigit_isDigit x (natDigitsAux_lt_ten m m x h1)
  · rw [List.eq_of_mem_replicate h2]
    decide

theorem natChars_zero : natChars 0 = ['0'] := rfl

theorem natChars_head_pos (n : ℕ) (h : 0 < n) :
    ∃ c t, natChars n = c :: t ∧ '1' ≤ c ∧ c ≤ '9' := by
  obtain ⟨d, ds, hds, hd1, hd2⟩ := natDigitsAux_last n n h le_rfl
  unfold natChars natDigits
  rw [if_neg (by omega), hds, List.map_append, List.reverse_append]
  refine ⟨charOfDigit d, (List.map charOfDigit ds).reverse, by simp, ?_⟩
  exact charOfDigit_pos d hd2 hd1

theorem natChars_ne_nil (n : ℕ) : natChars n ≠ [] := by
  by_cases hn : n = 0
  · rw [hn, natChars_zero]
    simp
  · obtain ⟨c, t, hct, _, _⟩ := natChars_head_pos n (Nat.pos_of_ne_zero hn)
    rw [hct]
    simp

theorem dropDigits_append_digits (xs r : List Char) (h : ∀ c ∈ xs, c.isDigit = true) :
    dropDigits (xs ++ r) = dropDigits r := by
  induction xs with
  | nil => rfl
  | cons c t ih =>
    rw [List.cons_append]
    simp only [dropDigits]
    rw [if_pos (h c (List.mem_cons_self c t))]
    exact ih fun x hx => h x (List.mem_cons_of_mem c hx)

theorem dropDigits_all (l : List Char) (h : ∀ c ∈ l, c.isDigit = true) :
    dropDigits l = [] := by
  have h2 := dropDigits_append_digits l [] h
  rw [List.append_nil] at h2
  rw [h2]
  rfl

theorem dropDigits_not (c : Char) (r : List Char) (h : ¬ c.isDigit = true) :
    dropDigits (c :: r) = c :: r := by
  simp only [dropDigits]
  rw [if_neg h]

theorem splitExp_none (l : List Char) (h : ∀ c ∈ l, c ≠ 'e' ∧ c ≠ 'E') :
    splitExp l = (l, []) := by
  induction l with
  | nil => rfl
  | cons c r ih =>
    simp only [splitExp]
    have hc := h c (List.mem_cons_self c r)
    rw [if_neg (by tauto), ih fun x hx => h x (List.mem_cons_of_mem c hx)]

theorem splitDot_none (l : List Char) (h : ∀ c ∈ l, c ≠ '.') :
    splitDot l = (l, []) := by
  induction l with
  | nil => rfl
  | cons c r ih =>
    simp only [splitDot]
    rw [if_neg (h c (List.mem_cons_self c r)),
      ih fun x hx => h x (List.mem_cons_of_mem c hx)]

theorem splitDot_found (xs ys : List Char) (h : ∀ c ∈ xs, c ≠ '.') :
    splitDot (xs ++ '.' :: ys) = (xs, ys) := by
  induction xs with
  | nil =>
    rw [List.nil_append]
    simp [splitDot]
  | cons c t ih =>
    rw [List.cons_append]
    simp only [splitDot]
    rw [if_neg (h c (List.mem_cons_self c t)),
      ih fun x hx => h x (List.mem_cons_of_mem c hx)]

/-! Denominator bookkeeping: the values the source formats are dyadic
rationals, so the digit-counting loop terminates with an integer. -/

theorem decDigitsAux_den (f : ℕ) : ∀ q : ℚ, (q * 10 ^ f).den = 1 →
    (q * 10 ^ decDigitsAux f q).den = 1 := by
  induction f with
  | zero =>
    intro q h
    exact h
  | succ f ih =>
    intro q h
    rw [decDigitsAux]
    by_cases hq : q.den = 1
    · rw [if_pos hq, pow_zero, mul_one]
      exact hq
    · rw [if_neg hq]
      have h2 : ((q * 10) * 10 ^ f).den = 1 := by
        rw [mul_assoc, ← pow_succ']
        exact h
      have h3 := ih (q * 10) h2
      rw [show q * 10 ^ (decDigitsAux f (q * 10) + 1) =
        q * 10 * 10 ^ decDigitsAux f (q * 10) by ring]
      exact h3

theorem den_one_mul_ten_pow (q : ℚ) (h : q.den = 1) (k : ℕ) : (q * 10 ^ k).den = 1 := by
  have hq : (q.num : ℚ) = q := Rat.coe_int_num_of_den_eq_one h
  have h2 : q * 10 ^ k = ((q.num * 10 ^ k : ℤ) : ℚ) := by
    push_cast
    rw [hq]
  rw [h2, Rat.den_intCast]

theorem den_pow2_mul_ten_pow (q : ℚ) (j : ℕ) (h : q.den = 2 ^ j) :
    (q * 10 ^ j).den = 1 := by
  have key : q * 10 ^ j = ((q.num * 5 ^ j : ℤ) : ℚ) := by
    obtain ⟨n, hn⟩ : ∃ n : ℤ, q.num = n := ⟨q.num, rfl⟩
    have hq := Rat.num_div_den q
    rw [hn, h] at hq
    rw [hn, ← hq]
    push_cast
    rw [div_mul_eq_mul_div, div_eq_iff (by positivity : ((2 : ℚ) ^ j) ≠ 0),
      show ((10 : ℚ)) = 5 * 2 by norm_num, mul_pow]
    ring
  rw [key, Rat.den_intCast]

theorem decDigits_den_dvd (q : ℚ) (j : ℕ) (h : q.den ∣ 2 ^ j) :
    (q * 10 ^ decDigits q).den = 1 := by
  obtain ⟨i, hij, hden⟩ := (Nat.dvd_prime_pow Nat.prime_two).mp h
  apply decDigitsAux_den
  have hstep : (q * 10 ^ i).den = 1 := den_pow2_mul_ten_pow q i hden
  have hle : i ≤ q.den := by
    rw [hden]
    exact le_of_lt (Nat.lt_two_pow i)
  have hsplit : q * 10 ^ q.den = (q * 10 ^ i) * 10 ^ (q.den - i) := by
    rw [mul_assoc, ← pow_add]
    congr 2
    omega
  rw [hsplit]
  exact den_one_mul_ten_pow _ hstep _

theorem dyadic_den_dvd (n : ℕ) (z : ℤ) : ∃ j : ℕ, ((n : ℚ) * 2 ^ z).den ∣ 2 ^ j := by
  by_cases hz : 0 ≤ z
  · refine ⟨0, ?_⟩
    have key : (n : ℚ) * 2 ^ z = ((n * 2 ^ z.toNat : ℕ) : ℚ) := by
      push_cast
      rw [← zpow_natCast (2 : ℚ) z.toNat, Int.toNat_of_nonneg hz]
    rw [key, Rat.den_natCast]
    norm_num
  · push_neg at hz
    obtain ⟨k, hk⟩ : ∃ k : ℕ, z = -(k : ℤ) := ⟨(-z).toNat, by omega⟩
    subst hk
    refine ⟨k, ?_⟩
    have key : (n : ℚ) * 2 ^ (-(k : ℤ)) = ((n : ℤ) : ℚ) * (((2 ^ k : ℕ) : ℚ))⁻¹ := by
      rw [zpow_neg, zpow_natCast]
      push_cast
      ring
    have hdvd := Rat.mul_den_dvd ((n : ℤ) : ℚ) ((((2 ^ k : ℕ) : ℚ))⁻¹)
    rw [← key, Rat.den_intCast, one_mul] at hdvd
    have hinv : (((((2 ^ k : ℕ) : ℚ))⁻¹).den) ∣ 2 ^ k := by
      have h1 : ((((2 ^ k : ℕ) : ℚ))⁻¹) = Rat.divInt (1 : ℤ) ((2 ^ k : ℕ) : ℤ) := by
        rw [Rat.divInt_eq_div]
        push_cast
        rw [one_div]
      rw [h1]
      have h2 := Rat.den_dvd (1 : ℤ) ((2 ^ k : ℕ) : ℤ)
      exact_mod_cast h2
    exact dvd_trans hdvd hinv

theorem getExactDecimal_den_dvd (b : ℕ) : ∃ j, (_getExactDecimal b).den ∣ 2 ^ j := by
  rw [getExactDecimal_closed]
  by_cases he : b / 2 ^ 52 % 2 ^ 11 = 0
  · rw [if_pos he]
    exact dyadic_den_dvd _ _
  · rw [if_neg he]
    exact dyadic_den_dvd _ _

theorem getExactDecimal_nonneg (b : ℕ) : 0 ≤ _getExactDecimal b := by
  rw [getExactDecimal_closed]
  split_ifs <;> positivity

/-! The rendered string parses back to the value it came from. -/

theorem toList_mk (l : List Char) : (String.mk l).toList = l := rfl

theorem isDigit_of_range (c : Char) (h1 : '1' ≤ c) (h2 : c ≤ '9') : c.isDigit = true := by
  unfold Char.isDigit
  rw [Bool.and_eq_true, decide_eq_true_iff, decide_eq_true_iff]
  exact ⟨le_trans (show ('0' : Char) ≤ '1' by decide) h1, h2⟩

theorem natChars_head (n : ℕ) : ∃ c t, natChars n = c :: t ∧ c.isDigit = true := by
  by_cases hn : n = 0
  · exact ⟨'0', [], by rw [hn, natChars_zero], by decide⟩
  · obtain ⟨c, t, hct, h1, h2⟩ := natChars_head_pos n (Nat.pos_of_ne_zero hn)
    exact ⟨c, t, hct, isDigit_of_range c h1 h2⟩

theorem litValue_digits (l : List Char) (hall : ∀ c ∈ l, c.isDigit = true) :
    litValue l = (digitsVal l : ℚ) := by
  unfold litValue
  rw [qpow10_eq]
  have hse : splitExp l = (l, []) := splitExp_none l fun c hc =>
    ⟨(isDigit_ne_special c (hall c hc)).1, (isDigit_ne_special c (hall c hc)).2.1⟩
  have hsd : splitDot l = (l, []) := splitDot_none l fun c hc =>
    (isDigit_ne_special c (hall c hc)).2.2.1
  rw [hse, hsd, List.append_nil]
  norm_num [expVal]

theorem litValue_digits_dot (ip fp : List Char) (hip : ∀ c ∈ ip, c.isDigit = true)
    (hfp : ∀ c ∈ fp, c.isDigit = true) :
    litValue (ip ++ '.' :: fp) =
      ((digitsVal ip * 10 ^ fp.length + digitsVal fp : ℕ) : ℚ) * 10 ^ (-(fp.length : ℤ)) := by
  unfold litValue
  rw [qpow10_eq]
  have hse : splitExp (ip ++ '.' :: fp) = (ip ++ '.' :: fp, []) := by
    apply splitExp_none
    intro c hc
    rcases List.mem_append.mp hc with h1 | h2
    · have := isDigit_ne_special c (hip c h1)
      tauto
    · rcases List.mem_cons.mp h2 with h3 | h4
      · subst h3
        exact ⟨by decide, by decide⟩
      · have := isDigit_ne_special c (hfp c h4)
        tauto
  have hsd : splitDot (ip ++ '.' :: fp) = (ip, fp) :=
    splitDot_found ip fp fun c hc => (isDigit_ne_special c (hip c hc)).2.2.1
  rw [hse, hsd, digitsVal_append]
  push_cast
  norm_num [expVal]

theorem matchFracExp_dot (fp : List Char) (hne : fp ≠ []) (hall : ∀ c ∈ fp, c.isDigit = true) :
    matchFracExp ('.' :: fp) = true := by
  simp only [matchFracExp]
  rw [if_pos trivial]
  cases fp with
  | nil => exact absurd rfl hne
  | cons fc fr =>
    simp only [matchDigitsExp]
    rw [hall fc (List.mem_cons_self _ _),
      dropDigits_all fr fun x hx => hall x (List.mem_cons_of_mem _ hx)]
    rfl

theorem matchIntPart_natChars_append (n : ℕ) (rest : List Char)
    (hr : dropDigits rest = rest) (hm : matchFracExp rest = true) :
    matchIntPart (natChars n ++ rest) = true := by
  by_cases hn : n = 0
  · rw [hn, natChars_zero]
    show matchIntPart ('0' :: rest) = true
    simp only [matchIntPart]
    rw [if_pos trivial]
    exact hm
  · obtain ⟨c, t, hct, h1, h2⟩ := natChars_head_pos n (Nat.pos_of_ne_zero hn)
    rw [hct, List.cons_append]
    simp only [matchIntPart]
    have hc0 : ¬ c = '0' := by
      intro he
      rw [he] at h1
      exact absurd h1 (by decide)
    rw [if_neg hc0, if_pos ⟨h1, h2⟩]
    have htd : ∀ x ∈ t, x.isDigit = true := by
      intro x hx
      have hall := (allDigits_iff (natChars n)).mp (allDigits_natChars n)
      exact hall x (by rw [hct]; exact List.mem_cons_of_mem c hx)
    rw [dropDigits_append_digits t rest htd, hr]
    exact hm

/-- Master inverse property: the formatted string of a nonnegative dyadic
rational starts with a digit, matches the unsigned literal grammar, and
parses back to exactly the value formatted. -/
theorem toFixed_inverse (q : ℚ) (h0 : 0 ≤ q) (j : ℕ) (hdvd : q.den ∣ 2 ^ j) :
    ∃ c t, (toFixed q).toList = c :: t ∧ c.isDigit = true ∧
      matchIntPart (c :: t) = true ∧ litValue (c :: t) = q := by
  have hden : (q * 10 ^ decDigits q).den = 1 := decDigits_den_dvd q j hdvd
  have hnum0 : 0 ≤ (q * 10 ^ decDigits q).num := Rat.num_nonneg.mpr (by positivity)
  have hqN : q * 10 ^ decDigits q = (((q * 10 ^ decDigits q).num.toNat : ℕ) : ℚ) := by
    have h1 : ((q * 10 ^ decDigits q).num : ℚ) = q * 10 ^ decDigits q :=
      Rat.coe_int_num_of_den_eq_one hden
    have h2 : (((q * 10 ^ decDigits q).num.toNat : ℕ) : ℚ) =
        (((q * 10 ^ decDigits q).num : ℤ) : ℚ) := by
      exact_mod_cast Int.toNat_of_nonneg hnum0
    rw [h2, h1]
  unfold toFixed
  by_cases hd0 : decDigits q = 0
  · rw [if_pos hd0]
    rw [hd0, pow_zero, mul_one] at hqN ⊢
    obtain ⟨c, t, hct, hcd⟩ := natChars_head q.num.toNat
    refine ⟨c, t, ?_, hcd, ?_, ?_⟩
    · rw [toList_mk, hct]
    · rw [← hct]
      have hmatch := matchIntPart_natChars_append q.num.toNat [] rfl rfl
      rwa [List.append_nil] at hmatch
    · rw [← hct,
        litValue_digits _ ((allDigits_iff (natChars q.num.toNat)).mp (allDigits_natChars _)),
        digitsVal_natChars]
      exact hqN.symm
  · rw [if_neg hd0]
    have hBlt : (q * 10 ^ decDigits q).num.toNat % 10 ^ decDigits q < 10 ^ decDigits q :=
      Nat.mod_lt _ (by positivity)
    have hflen : (fracChars ((q * 10 ^ decDigits q).num.toNat % 10 ^ decDigits q)
        (decDigits q)).length = decDigits q := fracChars_length _ _ hBlt
    have hfall : ∀ c ∈ fracChars ((q * 10 ^ decDigits q).num.toNat % 10 ^ decDigits q)
        (decDigits q), c.isDigit = true :=
      (allDigits_iff _).mp (allDigits_fracChars _ _)
    have hfne : fracChars ((q * 10 ^ decDigits q).num.toNat % 10 ^ decDigits q)
        (decDigits q) ≠ [] := by
      intro he
      rw [he] at hflen
      simp at hflen
      exact hd0 hflen.symm
    obtain ⟨c, t0, hct, hcd⟩ :=
      natChars_head ((q * 10 ^ decDigits q).num.toNat / 10 ^ decDigits q)
    refine ⟨c, t0 ++ '.' :: fracChars ((q * 10 ^ decDigits q).num.toNat % 10 ^ decDigits q)
      (decDigits q), ?_, hcd, ?_, ?_⟩
    · rw [toList_mk, hct, List.cons_append]
    · rw [← List.cons_append, ← hct]
      apply matchIntPart_natChars_append
      · exact dropDigits_not '.' _ (by decide)
      · exact matchFracExp_dot _ hfne hfall
    · rw [← List.cons_append, ← hct]
      have hnall : ∀ x ∈ natChars ((q * 10 ^ decDigits q).num.toNat / 10 ^ decDigits q),
          x.isDigit = true := (allDigits_iff _).mp (allDigits_natChars _)
      rw [litValue_digits_dot _ _ hnall hfall, digitsVal_natChars, digitsVal_fracChars, hflen,
        Nat.div_add_mod', ← hqN, mul_assoc, ← zpow_natCast (10 : ℚ) (decDigits q),
        ← zpow_add₀ (by norm_num : (10 : ℚ) ≠ 0)]
      norm_num

/-! String plumbing and behaviour of `parse` on grammar-valid input. -/

theorem empty_append_str (s : String) : "" ++ s = s := by
  cases s
  rfl

theorem toList_append (s t : String) : (s ++ t).toList = s.toList ++ t.toList := by
  cases s
  cases t
  rfl

theorem matchGrammar_head (s : String) (c : Char) (t : List Char)
    (hlist : s.toList = c :: t) (hc : ¬ c = '-') :
    matchGrammar s = matchIntPart (c :: t) := by
  simp only [matchGrammar, hlist]
  rw [if_neg hc]

theorem matchGrammar_minus (s : String) (r : List Char)
    (hlist : s.toList = '-' :: r) :
    matchGrammar s = matchIntPart r := by
  simp only [matchGrammar, hlist]
  rw [if_pos trivial]

theorem parse_not_grammar (s : String) (h1 : s ≠ "NaN") (h2 : s ≠ "Infinity")
    (h3 : s ≠ "-Infinity") (hg : matchGrammar s = false) :
    parse s = .error (.badGrammar s) := by
  unfold parse
  rw [if_neg h1, if_neg h2, if_neg h3, if_neg (by rw [hg]; exact Bool.false_ne_true)]

theorem matchGrammar_ne_specials (s : String) (hg : matchGrammar s = true) :
    s ≠ "NaN" ∧ s ≠ "Infinity" ∧ s ≠ "-Infinity" := by
  refine ⟨?_, ?_, ?_⟩ <;> intro he <;> rw [he] at hg <;> exact absurd hg (by decide)

theorem parse_of_grammar (s : String) (hg : matchGrammar s = true) :
    parse s =
      (match roundPos (litValue (if startsWithMinus s.toList then s.toList.drop 1
          else s.toList)) with
        | none => .error (.magnitude (String.mk (if startsWithMinus s.toList then
            s.toList.drop 1 else s.toList)))
        | some r =>
          if _getExactDecimal r = litValue (if startsWithMinus s.toList then
              s.toList.drop 1 else s.toList) then
            .ok (if startsWithMinus s.toList then r + 2 ^ 63 else r)
          else
            .error (.precisionLoss
              (String.mk (if startsWithMinus s.toList then s.toList.drop 1 else s.toList))
              (toFixed (_getExactDecimal r)))) := by
  obtain ⟨h1, h2, h3⟩ := matchGrammar_ne_specials s hg
  unfold parse
  rw [if_neg h1, if_neg h2, if_neg h3, if_pos hg]

/-- Round-trip: stringifying any finite 64-bit pattern and parsing the
result returns the identical bit pattern, signed zeros included. -/
theorem parse_stringify (b : ℕ) (hb : b < 2 ^ 64) (hfin : expField b ≠ 2047) :
    parse (stringify b) = .ok b := by
  have hinf : expField infBits = 2047 := by decide
  have hninf : expField negInfBits = 2047 := by decide
  unfold stringify
  rw [if_neg (by intro hand; exact hfin hand.1),
    if_neg (by intro he; rw [he] at hfin; exact hfin hinf),
    if_neg (by intro he; rw [he] at hfin; exact hfin hninf)]
  by_cases hneg : 2 ^ 63 ≤ b
  · rw [if_pos hneg, if_pos hneg]
    have hpb : b - 2 ^ 63 < 2 ^ 63 := by omega
    have hpbE : (b - 2 ^ 63) / 2 ^ 52 ≤ 2046 := by
      unfold expField at hfin
      norm_num at hfin hb hneg ⊢
      omega
    obtain ⟨j, hj⟩ := getExactDecimal_den_dvd (b - 2 ^ 63)
    obtain ⟨c, t, hct, hcd, hmatch, hval⟩ :=
      toFixed_inverse (_getExactDecimal (b - 2 ^ 63)) (getExactDecimal_nonneg _) j hj
    have hlist : ("-" ++ toFixed (_getExactDecimal (b - 2 ^ 63))).toList = '-' :: c :: t := by
      rw [toList_append, hct]
      rfl
    have hg : matchGrammar ("-" ++ toFixed (_getExactDecimal (b - 2 ^ 63))) = true := by
      rw [matchGrammar_minus _ _ hlist]
      exact hmatch
    rw [parse_of_grammar _ hg, hlist]
    have hsw : startsWithMinus ('-' :: c :: t) = true := rfl
    rw [hsw]
    simp only [eq_self_iff_true, if_true, List.drop_succ_cons, List.drop_zero]
    rw [hval, roundPos_getExactDecimal _ hpb hpbE]
    simp only []
    rw [if_pos trivial]
    rw [show b - 2 ^ 63 + 2 ^ 63 = b by omega]
  · rw [if_neg hneg, if_neg hneg]
    push_neg at hneg
    have hpbE : b / 2 ^ 52 ≤ 2046 := by
      unfold expField at hfin
      norm_num at hfin hneg ⊢
      omega
    obtain ⟨j, hj⟩ := getExactDecimal_den_dvd b
    obtain ⟨c, t, hct, hcd, hmatch, hval⟩ :=
      toFixed_inverse (_getExactDecimal b) (getExactDecimal_nonneg _) j hj
    have hcm : ¬ c = '-' := (isDigit_ne_special c hcd).2.2.2.1
    have hlist : ("" ++ toFixed (_getExactDecimal b)).toList = c :: t := by
      rw [empty_append_str, hct]
    have hg : matchGrammar ("" ++ toFixed (_getExactDecimal b)) = true := by
      rw [matchGrammar_head _ c t hlist hcm]
      exact hmatch
    rw [parse_of_grammar _ hg, hlist]
    have hsw : startsWithMinus (c :: t) = false := by
      show decide (c = '-') = false
      exact decide_eq_false hcm
    rw [hsw]
    simp only [Bool.false_eq_true, if_false]
    rw [hval, roundPos_getExactDecimal _ hneg hpbE]
    simp only []
    rw [if_pos trivial]

theorem parse_grammar_some (s : String) (r : ℕ) (hg : matchGrammar s = true)
    (hr : roundPos (litValue (stripMinus s)) = some r) :
    parse s =
      if _getExactDecimal r = litValue (stripMinus s) then
        .ok (if startsWithMinus s.toList then r + 2 ^ 63 else r)
      else
        .error (.precisionLoss (String.mk (stripMinus s)) (toFixed (_getExactDecimal r))) := by
  rw [parse_of_grammar s hg]
  unfold stripMinus at hr ⊢
  rw [hr]

theorem parse_grammar_none (s : String) (hg : matchGrammar s = true)
    (hr : roundPos (litValue (stripMinus s)) = none) :
    parse s = .error (.magnitude (String.mk (stripMinus s))) := by
  rw [parse_of_grammar s hg]
  unfold stripMinus at hr ⊢
  rw [hr]

/-! Concrete evaluations, checked by kernel reduction.  The arithmetic
definitions of the rational type are unsealed so that the evaluator can
unfold them. -/

set_option maxRecDepth 100000 in
unseal Rat.mul Rat.inv Rat.add Rat.sub in
theorem parse_point_one_eval : parse "0.1" = .error (.precisionLoss "0.1"
    (toFixed (_getExactDecimal 0x3FB999999999999A))) := by decide

set_option maxRecDepth 100000 in
unseal Rat.mul Rat.inv Rat.add Rat.sub in
theorem parse_point_five_eval : parse "0.5" = .ok 0x3FE0000000000000 := by decide

set_option maxRecDepth 100000 in
unseal Rat.mul Rat.inv Rat.add Rat.sub in
theorem getExact_half_eval : _getExactDecimal 0x3FE0000000000000 = 1 / 2 := by decide

set_option maxRecDepth 100000 in
unseal Rat.mul Rat.inv Rat.add Rat.sub in
theorem stringify_inf_eval : stringify infBits = "Infinity" := by decide

set_option maxRecDepth 100000 in
unseal Rat.mul Rat.inv Rat.add Rat.sub in
theorem stringify_ninf_eval : stringify negInfBits = "-Infinity" := by decide

set_option maxRecDepth 100000 in
unseal Rat.mul Rat.inv Rat.add Rat.sub in
theorem stringify_negzero_eval : stringify (2 ^ 63) = "-0" := by decide

set_option maxRecDepth 100000 in
unseal Rat.mul Rat.inv Rat.add Rat.sub in
theorem stringify_zero_eval : stringify 0 = "0" := by decide

set_option maxRecDepth 100000 in
unseal Rat.mul Rat.inv Rat.add Rat.sub in
theorem parse_nan_eval : parse "NaN" = .ok nanBits := by decide

set_option maxRecDepth 100000 in
unseal Rat.mul Rat.inv Rat.add Rat.sub in
theorem parse_inf_eval : parse "Infinity" = .ok infBits := by decide

set_option maxRecDepth 100000 in
unseal Rat.mul Rat.inv Rat.add Rat.sub in
theorem parse_ninf_eval : parse "-Infinity" = .ok negInfBits := by decide

set_option maxRecDepth 100000 in
unseal Rat.mul Rat.inv Rat.add Rat.sub in
theorem parse_negzero_eval : parse "-0" = .ok (2 ^ 63) := by decide

set_option maxRecDepth 100000 in
unseal Rat.mul Rat.inv Rat.add Rat.sub in
theorem parse_zero_eval : parse "0" = .ok 0 := by decide

set_option maxRecDepth 100000 in
unseal Rat.mul Rat.inv Rat.add Rat.sub in
theorem parse_1e400_eval : parse "1e400" = .error (.magnitude "1e400") := by decide

/-! Claim theorems. -/

/-- C1: for every representable finite floating-point value (bit pattern
below 2^64 with exponent field not all ones, both zeros included),
`parse (stringify x)` returns a value bitwise identical to `x`, including
the sign of zero. -/
theorem c1_roundtrip (b : ℕ) (hb : b < 2 ^ 64) (hfin : isFinite b) :
    parse (stringify b) = .ok b :=
  parse_stringify b hb hfin

set_option maxRecDepth 100000 in
unseal Rat.mul Rat.inv Rat.add Rat.sub in
theorem c1_roundtrip_witness :
    parse (stringify 0x3FE0000000000000) = .ok 0x3FE0000000000000 ∧
    parse (stringify 0x8000000000000000) = .ok 0x8000000000000000 :=
  ⟨c1_roundtrip 0x3FE0000000000000 (by norm_num) (by decide),
   c1_roundtrip 0x8000000000000000 (by norm_num) (by decide)⟩

set_option maxRecDepth 8000 in
/-- C2: parse never silently returns a value whose exact binary64 value
differs from the literal: (i) any successful parse of a grammar-valid
literal returns a pattern whose magnitude has exactly the literal value;
(ii) when the rounded value disagrees with the literal, parse fails with
the precision-loss error reporting the exact decimal of the rounded
(nearest) value; (iii) every in-range literal rounds to some finite
pattern; (iv) every exactly representable literal parses to that exact
value; and concretely parse "0.1" fails with precision loss while
parse "0.5" returns exactly one half. -/
theorem c2_exactness :
    (∀ (s : String) (r : ℕ), matchGrammar s = true → parse s = .ok r →
      _getExactDecimal (r % 2 ^ 63) = litValue (stripMinus s)) ∧
    (∀ (s : String) (r : ℕ), matchGrammar s = true →
      roundPos (litValue (stripMinus s)) = some r →
      _getExactDecimal r ≠ litValue (stripMinus s) →
      parse s = .error (.precisionLoss (String.mk (stripMinus s))
        (toFixed (_getExactDecimal r)))) ∧
    (∀ s : String, matchGrammar s = true →
      litValue (stripMinus s) < 2 ^ 1024 - 2 ^ 970 →
      ∃ r, roundPos (litValue (stripMinus s)) = some r) ∧
    (∀ (s : String) (r : ℕ), matchGrammar s = true → r < 2 ^ 63 → r / 2 ^ 52 ≤ 2046 →
      _getExactDecimal r = litValue (stripMinus s) →
      parse s = .ok (if startsWithMinus s.toList then r + 2 ^ 63 else r)) ∧
    parse "0.1" = .error (.precisionLoss "0.1"
      (toFixed (_getExactDecimal 0x3FB999999999999A))) ∧
    parse "0.5" = .ok 0x3FE0000000000000 ∧
    _getExactDecimal 0x3FE0000000000000 = 1 / 2 := by
  refine ⟨?_, ?_, ?_, ?_, parse_point_one_eval, parse_point_five_eval, getExact_half_eval⟩
  · intro s r hg hok
    rcases hcases : roundPos (litValue (stripMinus s)) with _ | r0
    · rw [parse_grammar_none s hg hcases] at hok
      exact Except.noConfusion hok
    · rw [parse_grammar_some s r0 hg hcases] at hok
      by_cases heq : _getExactDecimal r0 = litValue (stripMinus s)
      · rw [if_pos heq] at hok
        have hb63 := (roundPos_bounds _ _ hcases).1
        have hr : r = if startsWithMinus s.toList then r0 + 2 ^ 63 else r0 :=
          (Except.ok.inj hok).symm
        rw [hr]
        by_cases hsw : startsWithMinus s.toList = true
        · rw [if_pos hsw]
          rw [show (r0 + 2 ^ 63) % 2 ^ 63 = r0 by norm_num at hb63 ⊢; omega]
          exact heq
        · rw [if_neg hsw, Nat.mod_eq_of_lt hb63]
          exact heq
      · rw [if_neg heq] at hok
        exact Except.noConfusion hok
  · intro s r hg hr hne
    rw [parse_grammar_some s r hg hr, if_neg hne]
  · intro s _ hlt
    exact roundPos_isSome _ hlt
  · intro s r hg hb hE hval
    have hround : roundPos (litValue (stripMinus s)) = some r := by
      rw [← hval]
      exact roundPos_getExactDecimal r hb hE
    rw [parse_grammar_some s r hg hround, if_pos hval]

set_option maxRecDepth 100000 in
unseal Rat.mul Rat.inv Rat.add Rat.sub in
theorem c2_exactness_witness : parse "0.25" = .ok 0x3FD0000000000000 := by
  have h := c2_exactness.2.2.2.1 "0.25" 0x3FD0000000000000 (by decide) (by norm_num)
    (by norm_num) (by decide)
  exact h

set_option maxRecDepth 100000 in
unseal Rat.mul Rat.inv Rat.add Rat.sub in
/-- C3 counterexample: for the negative finite value -1 (bit pattern
0xBFF0000000000000), `_getExactDecimal` returns 1, not the exact real
value -1 that the pattern denotes, because `_decodeFloat` masks the sign
bit; so the claim fails for negative inputs. -/
theorem c3_counterexample :
    _getExactDecimal 0xBFF0000000000000 ≠ refValue 0xBFF0000000000000 := by decide

/-- C3 (amended): for every nonnegative finite floating-point value,
`_getExactDecimal` (the composition ExactValueComputer after BitDecoder)
equals the unique exact real number the pattern denotes under binary64,
with no rounding. -/
theorem c3_exact_value (b : ℕ) (hb : b < 2 ^ 63) (hfin : isFinite b) :
    _getExactDecimal b = refValue b := by
  have h := getExactDecimal_eq_refValue_abs b
  rwa [Nat.mod_eq_of_lt hb] at h

set_option maxRecDepth 100000 in
unseal Rat.mul Rat.inv Rat.add Rat.sub in
theorem c3_exact_value_witness :
    _getExactDecimal 0x3FF8000000000000 = refValue 0x3FF8000000000000 :=
  c3_exact_value 0x3FF8000000000000 (by norm_num) (by decide)

/-- C4: for well-formed fields, the exact-value computation returns
exactly `(mantissa / 2^52) * 2^(1-1023)` when the exponent field is zero
(exact zero when the mantissa is also zero) and exactly
`(mantissa / 2^52 + 1) * 2^(exponent-1023)` otherwise, with exact
rational arithmetic. -/
theorem c4_exact_from_fields (e m : ℕ) (he : e < 2048) (hm : m < 2 ^ 52) :
    (_exactFromFields e m =
      if e = 0 then ((m : ℚ) / 2 ^ 52) * 2 ^ ((1 : ℤ) - 1023)
      else ((m : ℚ) / 2 ^ 52 + 1) * 2 ^ ((e : ℤ) - 1023)) ∧
    (e = 0 → m = 0 → _exactFromFields e m = 0) := by
  constructor
  · unfold _exactFromFields
    rw [qpow2_eq]
    by_cases h0 : e = 0
    · rw [if_pos h0, if_pos h0, if_pos h0, add_zero]
    · rw [if_neg h0, if_neg h0, if_neg h0]
  · intro h0 hm0
    subst h0
    subst hm0
    unfold _exactFromFields
    rw [qpow2_eq]
    norm_num

set_option maxRecDepth 100000 in
unseal Rat.mul Rat.inv Rat.add Rat.sub in
theorem c4_exact_from_fields_witness : _exactFromFields 1023 0 = 1 := by
  have h := (c4_exact_from_fields 1023 0 (by norm_num) (by norm_num)).1
  norm_num at h
  exact h

/-- C5: for every nonnegative finite pattern, the decoder returns the
exponent field (bits 52-62, an 11-bit unsigned integer) and the mantissa
field (bits 0-51, a 52-bit unsigned integer), with no truncation. -/
theorem c5_decode_fields (b : ℕ) (hb : b < 2 ^ 63) (hfin : isFinite b) :
    (_decodeFloat b).1 = b / 2 ^ 52 % 2 ^ 11 ∧ (_decodeFloat b).2 = b % 2 ^ 52 :=
  ⟨decodeFloat_fst b, decodeFloat_snd b⟩

theorem c5_decode_fields_witness :
    (_decodeFloat 0x3FE0000000000000).1 = 1022 ∧
    (_decodeFloat 0x3FE0000000000000).2 = 0 := by
  have h := c5_decode_fields 0x3FE0000000000000 (by norm_num) (by decide)
  refine ⟨?_, ?_⟩
  · rw [h.1]
    decide
  · rw [h.2]
    decide

/-- C6: stringify maps NaN patterns to "NaN", the infinities to
"Infinity"/"-Infinity", negative zero to "-0" and positive zero to "0",
and parse maps each of those five strings back to the same special
value. -/
theorem c6_specials :
    (∀ b : ℕ, expField b = 2047 → b % 2 ^ 52 ≠ 0 → stringify b = "NaN") ∧
    stringify infBits = "Infinity" ∧
    stringify negInfBits = "-Infinity" ∧
    stringify (2 ^ 63) = "-0" ∧
    stringify 0 = "0" ∧
    parse "NaN" = .ok nanBits ∧ expField nanBits = 2047 ∧ nanBits % 2 ^ 52 ≠ 0 ∧
    parse "Infinity" = .ok infBits ∧
    parse "-Infinity" = .ok negInfBits ∧
    parse "-0" = .ok (2 ^ 63) ∧
    parse "0" = .ok 0 := by
  refine ⟨?_, stringify_inf_eval, stringify_ninf_eval, stringify_negzero_eval,
    stringify_zero_eval, parse_nan_eval, by decide, by decide,
    parse_inf_eval, parse_ninf_eval, parse_negzero_eval, parse_zero_eval⟩
  intro b h1 h2
  unfold stringify
  rw [if_pos ⟨h1, h2⟩]

set_option maxRecDepth 100000 in
unseal Rat.mul Rat.inv Rat.add Rat.sub in
theorem c6_specials_witness : stringify nanBits = "NaN" :=
  c6_specials.1 nanBits (by decide) (by decide)

/-- C7: parse fails with the grammar error for every string that is not
one of the three special inputs and does not match the decimal-literal
grammar; in particular for "01", "", "1." and "+1". -/
theorem c7_grammar_rejection :
    (∀ s : String, s ≠ "NaN" → s ≠ "Infinity" → s ≠ "-Infinity" →
      matchGrammar s = false → parse s = .error (.badGrammar s)) ∧
    parse "01" = .error (.badGrammar "01") ∧
    parse "" = .error (.badGrammar "") ∧
    parse "1." = .error (.badGrammar "1.") ∧
    parse "+1" = .error (.badGrammar "+1") :=
  ⟨parse_not_grammar, by decide, by decide, by decide, by decide⟩

theorem c7_grammar_rejection_witness : parse "abc" = .error (.badGrammar "abc") :=
  c7_grammar_rejection.1 "abc" (by decide) (by decide) (by decide) (by decide)

/-- C8: every grammar-valid literal whose magnitude reaches the binary64
overflow threshold (so that round-to-nearest cannot produce a finite
value) is rejected with the magnitude error - not the precision-loss
error - and in particular "1e400" is. -/
theorem c8_magnitude :
    (∀ s : String, matchGrammar s = true →
      overflowThreshold ≤ litValue (stripMinus s) →
      parse s = .error (.magnitude (String.mk (stripMinus s)))) ∧
    parse "1e400" = .error (.magnitude "1e400") := by
  constructor
  · intro s hg hth
    rw [overflowThreshold_eq] at hth
    exact parse_grammar_none s hg (roundPos_none _ hth)
  · exact parse_1e400_eval

set_option maxRecDepth 100000 in
unseal Rat.mul Rat.inv Rat.add Rat.sub in
theorem c8_magnitude_witness : parse "2e308" = .error (.magnitude "2e308") := by
  have h := c8_magnitude.1 "2e308" (by decide) (by decide)
  exact h

/-- C9: calling either operation with an argument count other than one
fails with the arity error, and calling with one argument of the wrong
dynamic type fails with the type error naming the received typeof. -/
theorem c9_guards :
    (∀ ps : List JSValue, ps.length ≠ 1 →
      stringifyV ps = .error (.arity ps.length) ∧ parseV ps = .error (.arity ps.length)) ∧
    (∀ v : JSValue, (∀ bits, v ≠ .num bits) →
      stringifyV [v] = .error (.typeMismatch "number" (typeofV v))) ∧
    (∀ v : JSValue, (∀ t, v ≠ .str t) →
      parseV [v] = .error (.typeMismatch "string" (typeofV v))) := by
  refine ⟨?_, ?_, ?_⟩
  · intro ps hlen
    rcases ps with _ | ⟨v, rest⟩
    · exact ⟨rfl, rfl⟩
    · rcases rest with _ | ⟨v2, rest2⟩
      · simp at hlen
      · exact ⟨by cases v <;> rfl, by cases v <;> rfl⟩
  · intro v hv
    cases v with
    | num bits => exact absurd rfl (hv bits)
    | str t => rfl
    | boolean x => rfl
    | undefined => rfl
    | null => rfl
    | object => rfl
    | function => rfl
  · intro v hv
    cases v with
    | num bits => rfl
    | str t => exact absurd rfl (hv t)
    | boolean x => rfl
    | undefined => rfl
    | null => rfl
    | object => rfl
    | function => rfl

theorem c9_guards_witness :
    stringifyV [] = .error (.arity 0) ∧
    parseV [JSValue.boolean true] = .error (.typeMismatch "string" "boolean") :=
  ⟨(c9_guards.1 [] (by decide)).1,
   c9_guards.2.2 (JSValue.boolean true) (fun t h => by cases h)⟩

/-- C10: the decoder is insensitive to the sign bit - decoding a pattern
with the sign bit set gives the same fields as with it clear - and hence
`_getExactDecimal` of any finite value equals the exact decimal value of
its absolute value. -/
theorem c10_sign_insensitive :
    (∀ b : ℕ, b < 2 ^ 63 → _decodeFloat (b + 2 ^ 63) = _decodeFloat b) ∧
    (∀ b : ℕ, b < 2 ^ 64 → isFinite b → _getExactDecimal b = refValue (b % 2 ^ 63)) := by
  constructor
  · intro b _
    exact decodeFloat_signflip b
  · intro b _ _
    exact getExactDecimal_eq_refValue_abs b

set_option maxRecDepth 100000 in
unseal Rat.mul Rat.inv Rat.add Rat.sub in
theorem c10_sign_insensitive_witness :
    _decodeFloat (1 + 2 ^ 63) = _decodeFloat 1 ∧
    _getExactDecimal 0xBFF0000000000000 = refValue (0xBFF0000000000000 % 2 ^ 63) :=
  ⟨c10_sign_insensitive.1 1 (by norm_num),
   c10_sign_insensitive.2 0xBFF0000000000000 (by norm_num) (by decide)⟩

end PreciseFloat
